import Mathlib

/-!
# Verification of the UnavailableSpotifyTracks scan-classify-dedup-write core

Shallow embedding of the core of `src/app.py` (and the variant classifier in
`src/spoti.py`) of the `UnavailableSpotifyTracks` repository, together with
proofs of the specification's claims about it.

Python dictionaries coming from the catalog API are modelled as structures
whose optional fields are `Option`-typed; Python strings are Lean `String`s
(or `List Char` where character-level scanning is needed); Python truthiness
of a string is "`some` and non-empty".
-/

namespace UnavailableTracks

/-! ## Data model: catalog items (tracks)

A track object as consumed by the classifiers.  Only the fields the core ever
reads are modelled: `id`, `uri`, `is_playable`, `restrictions.reason`
(flattened to `restriction`) and `available_markets`.  The display-only
fields (`name`, `artists`, `album`) feed exclusively into inert CSV text and
are not modelled.  A field that can be absent or `None` in the JSON is an
`Option`. -/

structure Track where
  id : Option String
  uri : Option String
  is_playable : Option Bool
  /-- `(track.get("restrictions") or {}).get("reason")` flattened. -/
  restriction : Option String
  available_markets : Option (List String)
  deriving Repr, DecidableEq

/-! ## Availability classifier (`app.py`, `is_unavailable_with_reason`)

```python
def is_unavailable_with_reason(track, user_country):
    reasons = []
    if not track or track.get("id") is None:
        reasons.append("no_track_object")
    else:
        if track.get("is_playable") is False:
            reasons.append("is_playable=false")
        restr = (track.get("restrictions") or {}).get("reason")
        if restr:
            reasons.append(f"restriction:{restr}")
        if user_country:
            am = track.get("available_markets") or []
            if user_country not in am:
                reasons.append("not_in_user_market")
    return (len(reasons) > 0, ";".join(reasons))
```
The reason list is exposed separately as `classify_reasons`; the function's
pair mirrors the Python return value. -/

/-- The reason appended by `if track.get("is_playable") is False`. -/
def playable_part (t : Track) : List String :=
  if t.is_playable = some false then ["is_playable=false"] else []

/-- The reason appended by `if restr: reasons.append(f"restriction:{restr}")`;
the Python guard is string truthiness, so an empty reason code appends
nothing. -/
def restriction_part (t : Track) : List String :=
  match t.restriction with
  | some r => if r = "" then [] else ["restriction:" ++ r]
  | none => []

/-- The reason appended by the `if user_country: ... if user_country not in
am` block; the region must be a truthy (non-empty) string. -/
def market_part (t : Track) (user_country : Option String) : List String :=
  match user_country with
  | some c =>
    if c = "" then []
    else if c ∈ t.available_markets.getD [] then []
    else ["not_in_user_market"]
  | none => []

def classify_reasons (track : Option Track) (user_country : Option String) :
    List String :=
  match track with
  | none => ["no_track_object"]
  | some t =>
    if t.id = none then ["no_track_object"]
    else playable_part t ++ restriction_part t ++ market_part t user_country

def is_unavailable_with_reason (track : Option Track)
    (user_country : Option String) : Bool × String :=
  let reasons := classify_reasons track user_country
  (decide (0 < reasons.length), String.intercalate ";" reasons)

/-! ## Variant classifier (`spoti.py`, `is_unavailable`)

```python
def is_unavailable(track, user_country=None):
    if not track or track.get("id") is None:
        return True
    if track.get("is_playable") is False:
        return True
    restr = (track.get("restrictions") or {}).get("reason")
    if restr in {"market", "product", "explicit"}:
        return True
    if user_country and user_country not in (track.get("available_markets") or []):
        return True
    return False
```
-/

def is_unavailable (track : Option Track) (user_country : Option String) :
    Bool :=
  match track with
  | none => true
  | some t =>
    if t.id = none then true
    else if t.is_playable = some false then true
    else if t.restriction = some "market" ∨ t.restriction = some "product"
        ∨ t.restriction = some "explicit" then true
    else
      match user_country with
      | some c => if c = "" then false else decide (c ∉ t.available_markets.getD [])
      | none => false

/-! ### Helper facts about the reason strings -/

theorem string_append_cancel {a b c : String} (h : a ++ b = a ++ c) : b = c := by
  have hd : (a ++ b).data = (a ++ c).data := by rw [h]
  rw [String.data_append, String.data_append] at hd
  exact String.ext (List.append_cancel_left hd)

theorem restriction_ne_playable (r : String) :
    "restriction:" ++ r ≠ "is_playable=false" := by
  intro h
  have hd : ("restriction:" ++ r).data = "is_playable=false".data := by rw [h]
  rw [String.data_append] at hd
  have : "restriction:".data = 'r' :: "estriction:".data := rfl
  rw [this] at hd
  simp at hd

theorem restriction_ne_market (r : String) :
    "restriction:" ++ r ≠ "not_in_user_market" := by
  intro h
  have hd : ("restriction:" ++ r).data = "not_in_user_market".data := by rw [h]
  rw [String.data_append] at hd
  have : "restriction:".data = 'r' :: "estriction:".data := rfl
  rw [this] at hd
  simp at hd

theorem mem_playable_part {x : String} {t : Track} :
    x ∈ playable_part t ↔
      x = "is_playable=false" ∧ t.is_playable = some false := by
  unfold playable_part
  split <;> simp_all

theorem mem_restriction_part {x : String} {t : Track} :
    x ∈ restriction_part t ↔
      ∃ r, t.restriction = some r ∧ r ≠ "" ∧ x = "restriction:" ++ r := by
  unfold restriction_part
  split
  · rename_i r hr
    split <;> simp_all
  · simp_all

theorem mem_market_part {x : String} {t : Track} {uc : Option String} :
    x ∈ market_part t uc ↔
      x = "not_in_user_market"
      ∧ ∃ c, uc = some c ∧ c ≠ "" ∧ c ∉ t.available_markets.getD [] := by
  unfold market_part
  split
  · split
    · simp_all
    · split <;> simp_all
  · simp_all

/-- **C4**: for every item (possibly null) and every optional region code,
`classify` returns `unavailable = true` iff its reason list is non-empty;
a missing item (or one with no stable identifier) yields the sole reason
`no_track_object`; otherwise all applicable reasons among not-playable,
`restriction:<code>` and region-not-in-allowed-set (region known only) are
collected, not just the first. -/
theorem classifier_collects_all_reasons (track : Option Track)
    (uc : Option String) :
    ((is_unavailable_with_reason track uc).1 = true ↔
        classify_reasons track uc ≠ [])
    ∧ ((track = none ∨ ∃ t, track = some t ∧ t.id = none) →
        classify_reasons track uc = ["no_track_object"])
    ∧ (∀ t, track = some t → t.id ≠ none →
        ("is_playable=false" ∈ classify_reasons track uc ↔
            t.is_playable = some false)
        ∧ (∀ r, r ≠ "" →
            (("restriction:" ++ r) ∈ classify_reasons track uc ↔
              t.restriction = some r))
        ∧ ("not_in_user_market" ∈ classify_reasons track uc ↔
            ∃ c, uc = some c ∧ c ≠ "" ∧ c ∉ t.available_markets.getD [])) := by
  refine ⟨?_, ?_, ?_⟩
  · simp only [is_unavailable_with_reason, decide_eq_true_eq]
    exact ⟨fun h => List.ne_nil_of_length_pos h,
           fun h => List.length_pos.mpr h⟩
  · rintro (rfl | ⟨t, rfl, hid⟩)
    · rfl
    · simp [classify_reasons, hid]
  · rintro t rfl hid
    simp only [classify_reasons, if_neg hid, List.mem_append,
      mem_playable_part, mem_restriction_part, mem_market_part]
    refine ⟨?_, ?_, ?_⟩
    · constructor
      · rintro ((⟨_, h⟩ | ⟨r, _, _, habs⟩) | ⟨habs, _⟩)
        · exact h
        · exact absurd habs.symm (restriction_ne_playable r)
        · exact absurd habs (by decide)
      · intro h
        exact Or.inl (Or.inl ⟨by trivial, h⟩)
    · intro r hr
      constructor
      · rintro ((⟨habs, _⟩ | ⟨r', hsome, _, heq⟩) | ⟨habs, _⟩)
        · exact absurd habs (restriction_ne_playable r)
        · rw [hsome, string_append_cancel heq]
        · exact absurd habs (restriction_ne_market r)
      · intro h
        exact Or.inl (Or.inr ⟨r, h, hr, rfl⟩)
    · constructor
      · rintro ((⟨habs, _⟩ | ⟨r, _, _, habs⟩) | ⟨_, hc⟩)
        · exact absurd habs (by decide)
        · exact absurd habs.symm (restriction_ne_market r)
        · exact hc
      · intro hc
        exact Or.inr ⟨by trivial, hc⟩

/-- Witness for `classifier_collects_all_reasons`: at a concrete track that is
not playable, restricted, and out of region, all three reasons appear. -/
theorem classifier_collects_all_reasons_witness :
    let t : Track := ⟨some "id0000000000000000000A", some "u", some false,
      some "market", some ["DE"]⟩
    ("is_playable=false" ∈ classify_reasons (some t) (some "US")
    ∧ ("restriction:" ++ "market") ∈ classify_reasons (some t) (some "US")
    ∧ "not_in_user_market" ∈ classify_reasons (some t) (some "US"))
    ∧ (is_unavailable_with_reason (some t) (some "US")).1 = true := by
  intro t
  have h := classifier_collects_all_reasons (some t) (some "US")
  have h3 := h.2.2 t rfl (by simp [t])
  refine ⟨⟨?_, ?_, ?_⟩, ?_⟩
  · exact h3.1.mpr rfl
  · exact (h3.2.1 "market" (by decide)).mpr rfl
  · exact h3.2.2.mpr ⟨"US", rfl, by decide, by decide⟩
  · exact h.1.mpr (by decide)

/-! ### C9: the two classifiers disagree

`spoti.py`'s `is_unavailable` only treats the restriction reasons `market`,
`product`, `explicit` as unavailability, while `app.py`'s
`is_unavailable_with_reason` treats any non-empty restriction reason as a
reason.  A track restricted with any other code separates them. -/

/-- **C9 counterexample**: on a playable, in-region track whose restriction
reason is `payment`, `spoti.py`'s classifier says available while `app.py`'s
says unavailable, refuting the claimed equivalence. -/
theorem classifier_variants_disagree :
    let t : Track := ⟨some "id0000000000000000000A", some "u", some true,
      some "payment", some ["US"]⟩
    is_unavailable (some t) (some "US") = false
    ∧ (is_unavailable_with_reason (some t) (some "US")).1 = true := by
  constructor <;> decide

/-- **C9 (amended)**: whenever the track's restriction reason, if present, is
empty or one of `market`/`product`/`explicit`, the boolean returned by
`spoti.py`'s `is_unavailable` equals the unavailable flag returned by
`app.py`'s `is_unavailable_with_reason`. -/
theorem classifier_variants_agree_on_known_restrictions
    (track : Option Track) (uc : Option String)
    (h : ∀ t, track = some t →
      t.restriction = none ∨ t.restriction = some ""
      ∨ t.restriction = some "market" ∨ t.restriction = some "product"
      ∨ t.restriction = some "explicit") :
    is_unavailable track uc = (is_unavailable_with_reason track uc).1 := by
  rcases track with _ | t
  · rfl
  · simp only [is_unavailable, is_unavailable_with_reason, classify_reasons]
    by_cases hid : t.id = none
    · simp [hid]
    · simp only [hid, if_false]
      by_cases hp : t.is_playable = some false
      · rw [if_pos hp]
        have hlen :
            0 < (playable_part t ++ restriction_part t
              ++ market_part t uc).length := by
          simp [playable_part, hp]
          try omega
        exact (decide_eq_true hlen).symm
      · rw [if_neg hp]
        have hpp : playable_part t = [] := by simp [playable_part, hp]
        rcases h t rfl with hr | hr | hr | hr | hr
        · rw [if_neg (by simp [hr])]
          have hrr : restriction_part t = [] := by simp [restriction_part, hr]
          simp only [hpp, hrr, List.nil_append]
          rcases uc with _ | c
          · simp [market_part]
          · by_cases hc : c = ""
            · simp [market_part, hc]
            · by_cases hm : c ∈ t.available_markets.getD []
              · simp [market_part, hc, hm]
              · simp [market_part, hc, hm]
        · rw [if_neg (by simp [hr])]
          have hrr : restriction_part t = [] := by simp [restriction_part, hr]
          simp only [hpp, hrr, List.nil_append]
          rcases uc with _ | c
          · simp [market_part]
          · by_cases hc : c = ""
            · simp [market_part, hc]
            · by_cases hm : c ∈ t.available_markets.getD []
              · simp [market_part, hc, hm]
              · simp [market_part, hc, hm]
        · rw [if_pos (by simp [hr])]
          have hlen :
              0 < (playable_part t ++ restriction_part t
                ++ market_part t uc).length := by
            simp [restriction_part, hr]
            try omega
          exact (decide_eq_true hlen).symm
        · rw [if_pos (by simp [hr])]
          have hlen :
              0 < (playable_part t ++ restriction_part t
                ++ market_part t uc).length := by
            simp [restriction_part, hr]
            try omega
          exact (decide_eq_true hlen).symm
        · rw [if_pos (by simp [hr])]
          have hlen :
              0 < (playable_part t ++ restriction_part t
                ++ market_part t uc).length := by
            simp [restriction_part, hr]
            try omega
          exact (decide_eq_true hlen).symm

/-- Witness for `classifier_variants_agree_on_known_restrictions` at a
`market`-restricted track. -/
theorem classifier_variants_agree_witness :
    let t : Track := ⟨some "id0000000000000000000A", some "u", some true,
      some "market", some ["US"]⟩
    is_unavailable (some t) (some "US")
      = (is_unavailable_with_reason (some t) (some "US")).1 :=
  classifier_variants_agree_on_known_restrictions _ _
    (fun t ht => by cases ht; right; right; left; rfl)

/-! ## Locator normalization (`app.py`, `normalize_playlist_id`)

```python
def normalize_playlist_id(value):
    if not value:
        return value
    value = value.strip()
    m = re.match(r"^spotify:playlist:([0-9A-Za-z]\x7b22\x7d)$", value)
    if m:
        return m.group(1)
    m = re.search(r"/playlist/([0-9A-Za-z]\x7b22\x7d)", value)
    if m:
        return m.group(1)
    if re.match(r"^[0-9A-Za-z]\x7b22\x7d$", value):
        return value
    return value
```
Modelled over `List Char` so the regex scans are explicit character-level
functions. -/

/-- The character class `[0-9A-Za-z]`. -/
def isIdChar (c : Char) : Bool := c.isAlphanum

/-- Full match of `^[0-9A-Za-z]\x7b22\x7d$`. -/
def id22 (cs : List Char) : Bool := cs.length == 22 && cs.all isIdChar

/-- Python `str.strip()`: whitespace removed from both ends. -/
def pyStrip (cs : List Char) : List Char :=
  ((cs.dropWhile Char.isWhitespace).reverse.dropWhile Char.isWhitespace).reverse

/-- One attempt of `re.search(r"/playlist/([0-9A-Za-z]\x7b22\x7d)")` at the
current position: the literal `/playlist/` followed by exactly 22
id-characters; on success the captured group. -/
def tryPlaylistAt (cs : List Char) : Option (List Char) :=
  if "/playlist/".toList.isPrefixOf cs then
    if 22 ≤ (cs.drop 10).length && ((cs.drop 10).take 22).all isIdChar then
      some ((cs.drop 10).take 22)
    else none
  else none

/-- `re.search` scans left to right for the first position that matches. -/
def searchPlaylist : List Char → Option (List Char)
  | [] => none
  | c :: rest =>
    match tryPlaylistAt (c :: rest) with
    | some g => some g
    | none => searchPlaylist rest

/-- The three regex branches, applied to the already-stripped value. -/
def normalize_stripped (v : List Char) : List Char :=
  if "spotify:playlist:".toList.isPrefixOf v && id22 (v.drop 17) then
    v.drop 17
  else
    match searchPlaylist v with
    | some g => g
    | none =>
      -- the already-an-ID `re.match` and the final fallthrough both
      -- return the stripped value itself
      if id22 v then v else v

def normalize_core (value : List Char) : List Char :=
  if value = [] then value
  else normalize_stripped (pyStrip value)

def normalize_playlist_id (s : String) : String :=
  String.mk (normalize_core s.data)

/-- The disjunction of the three recognized locator forms, on an
already-stripped value. -/
def recognized (v : List Char) : Bool :=
  ("spotify:playlist:".toList.isPrefixOf v && id22 (v.drop 17))
  || (searchPlaylist v).isSome || id22 v

/-! ### Helper lemmas for the normalizer -/

theorem not_ws_of_isIdChar {c : Char} (h : isIdChar c = true) :
    c.isWhitespace = false := by
  cases hw : c.isWhitespace
  · rfl
  · exfalso
    have hcases : c = ' ' ∨ c = '\t' ∨ c = '\r' ∨ c = '\n' := by
      simpa [Char.isWhitespace, or_assoc] using hw
    rcases hcases with rfl | rfl | rfl | rfl <;> exact absurd h (by decide)

theorem ws_false_of_all {l : List Char}
    (hl : l.all (fun c => !c.isWhitespace) = true) :
    ∀ c ∈ l, c.isWhitespace = false := by
  intro c hc
  have := List.all_eq_true.mp hl c hc
  simpa using this

theorem dropWhile_eq_self_of {p : Char → Bool} :
    ∀ {l : List Char}, (∀ c ∈ l, p c = false) → l.dropWhile p = l
  | [], _ => rfl
  | a :: l, h => by
    simp [List.dropWhile, h a (List.mem_cons_self a l)]

theorem pyStrip_eq_self {cs : List Char}
    (h : ∀ c ∈ cs, c.isWhitespace = false) : pyStrip cs = cs := by
  unfold pyStrip
  rw [dropWhile_eq_self_of h,
    dropWhile_eq_self_of (fun c hc => h c (List.mem_reverse.mp hc)),
    List.reverse_reverse]

theorem id22_spec {cs : List Char} (h : id22 cs = true) :
    cs.length = 22 ∧ ∀ c ∈ cs, isIdChar c = true := by
  simp only [id22, Bool.and_eq_true, beq_iff_eq, List.all_eq_true] at h
  exact h

theorem searchPlaylist_eq_none_of_alnum :
    ∀ {cs : List Char}, (∀ c ∈ cs, isIdChar c = true) →
      searchPlaylist cs = none := by
  intro cs
  induction cs with
  | nil => intro _; rfl
  | cons c rest ih =>
    intro h
    have hc : ('/' == c) = false := by
      rw [beq_eq_false_iff_ne]
      intro hc
      subst hc
      exact absurd (h '/' (List.mem_cons_self _ _)) (by decide)
    have hpre : "/playlist/".toList.isPrefixOf (c :: rest) = false := by
      rw [show "/playlist/".toList = '/' :: "playlist/".toList from rfl]
      simp [List.isPrefixOf, hc]
    simp only [searchPlaylist, tryPlaylistAt, hpre, if_false, Bool.false_eq_true]
    exact ih (fun x hx => h x (List.mem_cons_of_mem _ hx))

theorem isPrefixOf_append_self (l t : List Char) :
    l.isPrefixOf (l ++ t) = true :=
  List.isPrefixOf_iff_prefix.mpr (List.prefix_append l t)

theorem searchPlaylist_append {a tail : List Char}
    (h : ∀ i, i < a.length → tryPlaylistAt (a.drop i ++ tail) = none) :
    searchPlaylist (a ++ tail) = searchPlaylist tail := by
  induction a with
  | nil => simp
  | cons c as ih =>
    rw [List.cons_append]
    have h0 : tryPlaylistAt (c :: (as ++ tail)) = none := by
      have := h 0 (by simp)
      simpa using this
    simp only [searchPlaylist, h0]
    exact ih (fun i hi => by
      have := h (i + 1) (by simpa using Nat.succ_lt_succ hi)
      simpa using this)

theorem tryPlaylistAt_hit {idc suf : List Char} (hlen : idc.length = 22)
    (hall : ∀ c ∈ idc, isIdChar c = true) :
    tryPlaylistAt ("/playlist/".toList ++ (idc ++ suf)) = some idc := by
  unfold tryPlaylistAt
  rw [if_pos (isPrefixOf_append_self _ _)]
  rw [List.drop_left' (by decide : "/playlist/".toList.length = 10)]
  rw [List.take_left' hlen]
  rw [if_pos ?hcond]
  case hcond =>
    simp only [Bool.and_eq_true, decide_eq_true_eq, List.all_eq_true]
    exact ⟨by simp [List.length_append, hlen], hall⟩

/-- The bare-identifier branch of `normalize_core`. -/
theorem normalize_core_bare {idc : List Char} (hid : id22 idc = true) :
    normalize_core idc = idc := by
  obtain ⟨hlen, hall⟩ := id22_spec hid
  have hne : idc ≠ [] := by
    intro h
    rw [h] at hlen
    simp at hlen
  have hws : ∀ c ∈ idc, c.isWhitespace = false :=
    fun c hc => not_ws_of_isIdChar (hall c hc)
  unfold normalize_core normalize_stripped
  rw [if_neg hne]
  rw [pyStrip_eq_self hws]
  have hb1 : "spotify:playlist:".toList.isPrefixOf idc = false := by
    cases hb : "spotify:playlist:".toList.isPrefixOf idc
    · rfl
    · exfalso
      obtain ⟨t, ht⟩ := List.isPrefixOf_iff_prefix.mp hb
      have : (':' : Char) ∈ idc := by
        rw [← ht]
        exact List.mem_append_left t (by decide)
      exact absurd (hall ':' this) (by decide)
  rw [hb1]
  simp only [Bool.false_and, if_false, Bool.false_eq_true]
  rw [searchPlaylist_eq_none_of_alnum hall]
  simp

/-- The scheme-qualified branch of `normalize_core`. -/
theorem normalize_core_uri {idc : List Char} (hid : id22 idc = true) :
    normalize_core ("spotify:playlist:".toList ++ idc) = idc := by
  obtain ⟨hlen, hall⟩ := id22_spec hid
  have hws : ∀ c ∈ "spotify:playlist:".toList ++ idc, c.isWhitespace = false := by
    intro c hc
    rcases List.mem_append.mp hc with hc | hc
    · exact ws_false_of_all (by decide) c hc
    · exact not_ws_of_isIdChar (hall c hc)
  unfold normalize_core normalize_stripped
  rw [if_neg (by simp)]
  rw [pyStrip_eq_self hws]
  rw [isPrefixOf_append_self,
    List.drop_left' (by decide : "spotify:playlist:".toList.length = 17), hid]
  simp

/-- The web-URL branch of `normalize_core`: any URL of the canonical host
form, with an arbitrary whitespace-free tail (query parameters etc.). -/
theorem normalize_core_url {idc suf : List Char} (hid : id22 idc = true)
    (hsuf : ∀ c ∈ suf, c.isWhitespace = false) :
    normalize_core ("https://open.spotify.com/playlist/".toList ++ idc ++ suf)
      = idc := by
  obtain ⟨hlen, hall⟩ := id22_spec hid
  have hws : ∀ c ∈ "https://open.spotify.com/playlist/".toList ++ idc ++ suf,
      c.isWhitespace = false := by
    intro c hc
    rcases List.mem_append.mp hc with hc | hc
    · rcases List.mem_append.mp hc with hc | hc
      · exact ws_false_of_all (by decide) c hc
      · exact not_ws_of_isIdChar (hall c hc)
    · exact hsuf c hc
  unfold normalize_core normalize_stripped
  rw [if_neg (by simp)]
  rw [pyStrip_eq_self hws]
  have hb1 : "spotify:playlist:".toList.isPrefixOf
      ("https://open.spotify.com/playlist/".toList ++ idc ++ suf) = false := rfl
  rw [hb1]
  simp only [Bool.false_and, if_false, Bool.false_eq_true]
  have hsplit : "https://open.spotify.com/playlist/".toList ++ idc ++ suf
      = "https://open.spotify.com".toList
        ++ ("/playlist/".toList ++ (idc ++ suf)) := by
    simp [List.append_assoc]
  rw [hsplit, searchPlaylist_append ?hskip]
  case hskip =>
    intro i hi
    rw [show ("https://open.spotify.com".toList).length = 24 from by decide] at hi
    interval_cases i <;> rfl
  rw [show "/playlist/".toList ++ (idc ++ suf)
      = '/' :: ("playlist/".toList ++ (idc ++ suf)) from rfl]
  rw [searchPlaylist,
    show '/' :: ("playlist/".toList ++ (idc ++ suf))
      = "/playlist/".toList ++ (idc ++ suf) from rfl,
    tryPlaylistAt_hit hlen hall]

/-- The passthrough branch: nothing recognized, the stripped value comes
back unchanged. -/
theorem normalize_core_passthrough {v : List Char}
    (h : recognized (pyStrip v) = false) :
    normalize_core v = pyStrip v := by
  by_cases hv : v = []
  · subst hv
    rfl
  · unfold normalize_core normalize_stripped
    rw [if_neg hv]
    simp only [recognized, Bool.or_eq_false_iff] at h
    obtain ⟨⟨h1, h2⟩, h3⟩ := h
    rw [h1]
    simp only [if_false, Bool.false_eq_true]
    have hnone : searchPlaylist (pyStrip v) = none :=
      Option.not_isSome_iff_eq_none.mp (by simp [h2])
    rw [hnone]
    simp

/-- **C8**: normalizing any of the three recognized forms of a 22-character
alphanumeric identifier — the bare identifier, `spotify:playlist:<id>`, and
a web URL containing `/playlist/<id>` (query parameters or not) — yields the
same canonical identifier; any input matching no recognized form passes
through as the original trimmed string. -/
theorem normalize_playlist_id_ok :
    (∀ idStr : String, id22 idStr.data = true →
      normalize_playlist_id idStr = idStr
      ∧ normalize_playlist_id ("spotify:playlist:" ++ idStr) = idStr
      ∧ ∀ suf : String, (∀ c ∈ suf.data, c.isWhitespace = false) →
          normalize_playlist_id
            ("https://open.spotify.com/playlist/" ++ idStr ++ suf) = idStr)
    ∧ (∀ v : String, recognized (pyStrip v.data) = false →
        normalize_playlist_id v = String.mk (pyStrip v.data)) := by
  constructor
  · intro idStr hid
    refine ⟨?_, ?_, ?_⟩
    · show String.mk (normalize_core idStr.data) = idStr
      rw [normalize_core_bare hid]
    · show String.mk (normalize_core ("spotify:playlist:" ++ idStr).data) = idStr
      rw [String.data_append]
      show String.mk
        (normalize_core ("spotify:playlist:".toList ++ idStr.data)) = idStr
      rw [normalize_core_uri hid]
    · intro suf hsuf
      show String.mk
        (normalize_core ("https://open.spotify.com/playlist/" ++ idStr ++ suf).data)
          = idStr
      rw [String.data_append, String.data_append]
      show String.mk
        (normalize_core
          ("https://open.spotify.com/playlist/".toList ++ idStr.data ++ suf.data))
          = idStr
      rw [normalize_core_url hid hsuf]
  · intro v h
    show String.mk (normalize_core v.data) = String.mk (pyStrip v.data)
    rw [normalize_core_passthrough h]

/-- Witness for `normalize_playlist_id_ok`: all three forms of a concrete
identifier normalize to it, and a non-matching string passes through
trimmed. -/
theorem normalize_playlist_id_ok_witness :
    normalize_playlist_id "0123456789abcdefghijAB" = "0123456789abcdefghijAB"
    ∧ normalize_playlist_id "spotify:playlist:0123456789abcdefghijAB"
        = "0123456789abcdefghijAB"
    ∧ normalize_playlist_id
        "https://open.spotify.com/playlist/0123456789abcdefghijAB?si=xyz"
        = "0123456789abcdefghijAB"
    ∧ normalize_playlist_id " not-a-playlist " = "not-a-playlist" := by
  have h := normalize_playlist_id_ok
  have h1 := h.1 "0123456789abcdefghijAB" (by decide)
  refine ⟨h1.1, ?_, ?_, ?_⟩
  · have := h1.2.1
    simpa using this
  · have := h1.2.2 "?si=xyz" (by decide)
    simpa using this
  · have := h.2 " not-a-playlist " (by decide)
    simpa using this

/-! ## Dedup collector (`app.py`, worker scan phase)

The worker keeps a set of seen locators and the ordered candidate list:

```python
seen_uris = set()
good_uris = []
...
if uri and URI_RE.match(uri) and uri not in seen_uris:
    seen_uris.add(uri)
    good_uris.append(uri)
```

The collector state is modelled as the pair `(seen, good)` (the Python set
as a list queried by membership), and one guarded insertion as
`offer_uri`. -/

def offer_uri (st : List String × List String) (u : String) :
    List String × List String :=
  if u ∈ st.1 then st else (u :: st.1, st.2 ++ [u])

/-- Reference first-occurrence deduplication: keep each locator's first
occurrence, in order. -/
def dedupFirst : List String → List String
  | [] => []
  | u :: rest => u :: dedupFirst (rest.filter (fun x => decide (x ≠ u)))
termination_by l => l.length
decreasing_by
  simp only [List.length_cons]
  exact Nat.lt_succ_of_le (List.length_filter_le _ _)

theorem mem_dedupFirst (u : String) (l : List String) :
    u ∈ dedupFirst l ↔ u ∈ l := by
  induction l using dedupFirst.induct with
  | case1 => simp [dedupFirst]
  | case2 a rest ih =>
    rw [dedupFirst, List.mem_cons]
    by_cases hu : u = a
    · simp [hu]
    · rw [ih]
      simp [List.mem_filter, hu]

theorem dedupFirst_nodup (l : List String) : (dedupFirst l).Nodup := by
  induction l using dedupFirst.induct with
  | case1 => simp [dedupFirst]
  | case2 a rest ih =>
    rw [dedupFirst]
    refine List.nodup_cons.mpr ⟨?_, ih⟩
    intro ha
    have := (mem_dedupFirst a _).mp ha
    simp [List.mem_filter] at this

theorem offer_uri_mem {st : List String × List String} {u : String}
    (h : u ∈ st.1) : offer_uri st u = st := by
  rcases st with ⟨s, g⟩
  simp only [offer_uri]
  rw [if_pos h]

theorem offer_uri_new {st : List String × List String} {u : String}
    (h : u ∉ st.1) : offer_uri st u = (u :: st.1, st.2 ++ [u]) := by
  rcases st with ⟨s, g⟩
  simp only [offer_uri]
  rw [if_neg h]

theorem foldl_offer_seen (l : List String) (s g : List String) (u : String) :
    u ∈ (l.foldl offer_uri (s, g)).1 ↔ u ∈ s ∨ u ∈ l := by
  induction l generalizing s g with
  | nil => simp
  | cons a rest ih =>
    simp only [List.foldl_cons]
    by_cases ha : a ∈ s
    · rw [offer_uri_mem ha, ih]
      constructor
      · rintro (h | h)
        · exact Or.inl h
        · exact Or.inr (List.mem_cons_of_mem _ h)
      · rintro (h | h)
        · exact Or.inl h
        · rcases List.mem_cons.mp h with rfl | h
          · exact Or.inl ha
          · exact Or.inr h
    · rw [offer_uri_new ha, ih]
      simp only [List.mem_cons]
      constructor
      · rintro ((rfl | h) | h)
        · exact Or.inr (Or.inl rfl)
        · exact Or.inl h
        · exact Or.inr (Or.inr h)
      · rintro (h | rfl | h)
        · exact Or.inl (Or.inr h)
        · exact Or.inl (Or.inl rfl)
        · exact Or.inr h

theorem foldl_offer_good (l : List String) (s g : List String) :
    (l.foldl offer_uri (s, g)).2
      = g ++ dedupFirst (l.filter (fun x => decide (x ∉ s))) := by
  induction l generalizing s g with
  | nil => simp [dedupFirst]
  | cons a rest ih =>
    simp only [List.foldl_cons, List.filter_cons]
    by_cases ha : a ∈ s
    · rw [offer_uri_mem ha, ih]
      simp [ha]
    · rw [offer_uri_new ha, ih]
      have hneg : (decide (a ∉ s)) = true := by simp [ha]
      rw [hneg]
      simp only [if_true]
      rw [show dedupFirst (a :: rest.filter (fun x => decide (x ∉ s)))
          = a :: dedupFirst ((rest.filter (fun x => decide (x ∉ s))).filter
              (fun x => decide (x ≠ a))) from by rw [dedupFirst]]
      rw [List.filter_filter]
      have hfil : rest.filter (fun x => decide (x ∉ a :: s))
          = rest.filter (fun x => decide (x ≠ a) && decide (x ∉ s)) := by
        apply List.filter_congr
        intro x _
        simp only [List.mem_cons, not_or, decide_not]
        simp
      rw [hfil]
      simp

/-- **C5**: for every sequence of locators offered to one job's dedup
collector, a repeated offer leaves the candidate list unchanged; the final
candidate list is exactly the first-occurrence deduplication of the offered
sequence (first-seen order), is duplicate-free, and contains each offered
locator exactly once — in particular a locator offered from two different
collections yields one entry. -/
theorem dedup_collector_ok :
    (∀ (l : List String) (u : String), u ∈ l →
        ((l ++ [u]).foldl offer_uri ([], [])).2
          = (l.foldl offer_uri ([], [])).2)
    ∧ (∀ l : List String, (l.foldl offer_uri ([], [])).2 = dedupFirst l)
    ∧ (∀ l : List String, ((l.foldl offer_uri ([], [])).2).Nodup)
    ∧ (∀ (l : List String) (u : String), u ∈ l →
        ((l.foldl offer_uri ([], [])).2).count u = 1) := by
  have hgood : ∀ l : List String,
      (l.foldl offer_uri ([], [])).2 = dedupFirst l := by
    intro l
    rw [foldl_offer_good]
    simp
  refine ⟨?_, hgood, ?_, ?_⟩
  · intro l u hu
    rw [List.foldl_append]
    have hseen : u ∈ ((l.foldl offer_uri ([], [])).1) :=
      (foldl_offer_seen l [] [] u).mpr (Or.inr hu)
    simp only [List.foldl_cons, List.foldl_nil]
    rw [offer_uri_mem hseen]
  · intro l
    rw [hgood]
    exact dedupFirst_nodup l
  · intro l u hu
    rw [hgood]
    exact List.count_eq_one_of_mem (dedupFirst_nodup l)
      ((mem_dedupFirst u l).mpr hu)

/-- Witness for `dedup_collector_ok`: a locator seen in two places produces
one candidate entry, and re-offering it changes nothing. -/
theorem dedup_collector_ok_witness :
    ((["spotify:track:a", "spotify:track:b"] ++ ["spotify:track:a"]).foldl
        offer_uri ([], [])).2
      = ((["spotify:track:a", "spotify:track:b"]).foldl offer_uri ([], [])).2
    ∧ ((["spotify:track:a", "spotify:track:b", "spotify:track:a"]).foldl
        offer_uri ([], [])).2.count "spotify:track:a" = 1 :=
  ⟨dedup_collector_ok.1 ["spotify:track:a", "spotify:track:b"]
      "spotify:track:a" (by decide),
   dedup_collector_ok.2.2.2
      ["spotify:track:a", "spotify:track:b", "spotify:track:a"]
      "spotify:track:a" (by decide)⟩

/-! ## Batched resilient writer (`app.py`, `safe_add_items`)

```python
def safe_add_items(sp, playlist_id, uris, record_bad_uri) -> int:
    added = 0
    def add_chunk(chunk):
        nonlocal added
        if not chunk:
            return
        try:
            sp.playlist_add_items(playlist_id, chunk)
            added += len(chunk)
            time.sleep(SLEEP_BETWEEN)
        except SpotifyException as e:
            if len(chunk) == 1:
                record_bad_uri(chunk[0], f"add_failed:...")
                return
            mid = len(chunk) // 2
            add_chunk(chunk[:mid])
            add_chunk(chunk[mid:])
    i = 0
    while i < len(uris):
        add_chunk(uris[i:i+100])
        i += 100
    return added
```

The mutating capability is a function from the submitted chunk to an
outcome; only a `SpotifyException` is caught, anything else propagates out
of the writer.  State is the `added` counter plus the bad-uri records the
callback appended; a propagating exception is returned alongside the state
reached so far (its side effects are kept, as in Python). -/

/-- Outcome of one `sp.playlist_add_items` call. -/
inductive CallResult where
  | ok : CallResult
  | spotifyErr : String → CallResult
  | otherErr : String → CallResult
  deriving Repr, DecidableEq

/-- Writer-visible state: `added` counter and appended bad-uri records
`(uri, note)`. -/
structure WriteSt where
  added : Nat
  recs : List (String × String)
  deriving Repr, DecidableEq

/-- Sequencing with exception propagation: run the continuation only when
the first step did not raise. -/
def andThen (r : WriteSt × Option String)
    (f : WriteSt → WriteSt × Option String) : WriteSt × Option String :=
  match r with
  | (st, none) => f st
  | (st, some e) => (st, some e)

@[simp] theorem andThen_none (st : WriteSt)
    (f : WriteSt → WriteSt × Option String) :
    andThen (st, none) f = f st := rfl

@[simp] theorem andThen_some (st : WriteSt) (e : String)
    (f : WriteSt → WriteSt × Option String) :
    andThen (st, some e) f = (st, some e) := rfl

def add_chunk (call : List String → CallResult) :
    List String → WriteSt → WriteSt × Option String
  | [], st => (st, none)
  | c :: cs, st =>
    match call (c :: cs) with
    | .ok => (⟨st.added + (c :: cs).length, st.recs⟩, none)
    | .spotifyErr m =>
      match cs with
      | [] => (⟨st.added, st.recs ++ [(c, "add_failed:" ++ m)]⟩, none)
      | c2 :: cs2 =>
        andThen
          (add_chunk call
            ((c :: c2 :: cs2).take ((c :: c2 :: cs2).length / 2)) st)
          (add_chunk call
            ((c :: c2 :: cs2).drop ((c :: c2 :: cs2).length / 2)))
    | .otherErr m => (st, some m)
termination_by l _ => l.length
decreasing_by
  · simp only [List.length_take, List.length_cons]
    omega
  · simp only [List.length_drop, List.length_cons]
    omega

/-- The `while i < len(uris)` loop of `safe_add_items`: chunks of at most
100, threading the state; a propagating exception aborts the loop. -/
def safe_add_items (call : List String → CallResult) :
    List String → WriteSt → WriteSt × Option String
  | [], st => (st, none)
  | u :: rest, st =>
    andThen (add_chunk call ((u :: rest).take 100) st)
      (safe_add_items call ((u :: rest).drop 100))
termination_by l _ => l.length
decreasing_by
  simp only [List.length_drop, List.length_cons]
  omega

/-- The worker's write phase loop (`i += batch_size` stepping over
`filtered_uris`, each batch handed to `safe_add_items`).  `batch_size = 0`
cannot occur — the `/start` route clamps it into `[1, 100]` before
`start_job` — the guard below only makes the recursion total. -/
def write_items (call : List String → CallResult) (batch_size : Nat) :
    List String → WriteSt → WriteSt × Option String
  | [], st => (st, none)
  | u :: rest, st =>
    if _h : batch_size = 0 then (st, none)
    else
      andThen (safe_add_items call ((u :: rest).take batch_size) st)
        (write_items call batch_size ((u :: rest).drop batch_size))
termination_by l _ => l.length
decreasing_by
  simp only [List.length_drop, List.length_cons]
  omega

/-! ### `add_chunk` behaviour under a single rejected locator -/

theorem add_chunk_all_ok {call : List String → CallResult} {b : String}
    (hok : ∀ chunk, chunk ≠ [] → b ∉ chunk → call chunk = CallResult.ok)
    {chunk : List String} (hb : b ∉ chunk) (st : WriteSt) :
    add_chunk call chunk st
      = (⟨st.added + chunk.length, st.recs⟩, none) := by
  match chunk with
  | [] => simp [add_chunk]
  | c :: cs =>
    rw [add_chunk, hok (c :: cs) (by simp) hb]

theorem add_chunk_count_one {call : List String → CallResult} {b mb : String}
    (hfail : ∀ chunk, b ∈ chunk → ∃ mm, call chunk = CallResult.spotifyErr mm)
    (hok : ∀ chunk, chunk ≠ [] → b ∉ chunk → call chunk = CallResult.ok)
    (hm : call [b] = CallResult.spotifyErr mb) :
    ∀ (n : Nat) (chunk : List String) (st : WriteSt), chunk.length = n →
      chunk.count b = 1 →
      add_chunk call chunk st
        = (⟨st.added + chunk.length - 1,
            st.recs ++ [(b, "add_failed:" ++ mb)]⟩, none) := by
  intro n
  induction n using Nat.strong_induction_on with
  | _ n ih =>
    intro chunk st hlen hcount
    match chunk, hlen with
    | [], hlen => simp at hcount
    | [c], hlen =>
      have hc : c = b := by
        by_cases h : c = b
        · exact h
        · rw [List.count_singleton'] at hcount
          simp [h] at hcount
      subst hc
      rw [add_chunk, hm]
      simp
    | c :: c2 :: cs2, hlen =>
      have hb : b ∈ c :: c2 :: cs2 := by
        apply List.count_pos_iff.mp
        omega
      obtain ⟨m, hcall⟩ := hfail _ hb
      rw [add_chunk, hcall]
      dsimp only
      set L := c :: c2 :: cs2 with hL
      set mid := L.length / 2 with hmid
      have hlen2 : L.length = cs2.length + 2 := by
        rw [hL]
        simp
      have hmid1 : 1 ≤ mid := by
        rw [hmid, hlen2]
        omega
      have hmidlt : mid < L.length := by
        rw [hmid, hlen2]
        omega
      have htlen : (L.take mid).length = mid := by
        rw [List.length_take]
        omega
      have hdlen : (L.drop mid).length = L.length - mid := by
        rw [List.length_drop]
      have hsum : (L.take mid).count b + (L.drop mid).count b = 1 := by
        rw [← List.count_append, List.take_append_drop]
        exact hcount
      by_cases hbt : b ∈ L.take mid
      · have h1 : (L.take mid).count b = 1 := by
          have : 0 < (L.take mid).count b := List.count_pos_iff.mpr hbt
          omega
        have hbd : b ∉ L.drop mid := by
          intro hmem
          have : 0 < (L.drop mid).count b := List.count_pos_iff.mpr hmem
          omega
        rw [ih mid (by omega) (L.take mid) st htlen h1]
        rw [andThen_none, add_chunk_all_ok hok hbd]
        simp only [Prod.mk.injEq, WriteSt.mk.injEq, htlen, hdlen]
        refine ⟨⟨?_, by trivial⟩, by trivial⟩
        omega
      · have h0 : (L.take mid).count b = 0 := by
          rcases Nat.eq_zero_or_pos ((L.take mid).count b) with h | h
          · exact h
          · exact absurd (List.count_pos_iff.mp h) hbt
        have h1 : (L.drop mid).count b = 1 := by omega
        rw [add_chunk_all_ok hok hbt]
        rw [andThen_none, ih (L.length - mid) (by omega) (L.drop mid) _ hdlen h1]
        simp only [Prod.mk.injEq, WriteSt.mk.injEq, hdlen]
        refine ⟨⟨?_, by trivial⟩, by trivial⟩
        omega

/-- **C10 (chunk level)**: a non-`SpotifyException` failure is not caught;
no bisection, no record, the error propagates with the state untouched. -/
theorem add_chunk_other_error {call : List String → CallResult}
    {c : String} {cs : List String} {m : String} (st : WriteSt)
    (h : call (c :: cs) = CallResult.otherErr m) :
    add_chunk call (c :: cs) st = (st, some m) := by
  rw [add_chunk, h]

theorem safe_add_items_all_ok {call : List String → CallResult} {b : String}
    (hok : ∀ chunk, chunk ≠ [] → b ∉ chunk → call chunk = CallResult.ok) :
    ∀ (n : Nat) (uris : List String) (st : WriteSt), uris.length = n →
      b ∉ uris →
      safe_add_items call uris st
        = (⟨st.added + uris.length, st.recs⟩, none) := by
  intro n
  induction n using Nat.strong_induction_on with
  | _ n ih =>
    intro uris st hlen hb
    match uris, hlen with
    | [], _ => simp [safe_add_items]
    | u :: rest, hlen =>
      rw [safe_add_items]
      have hbt : b ∉ (u :: rest).take 100 :=
        fun h => hb (List.take_subset _ _ h)
      have hbd : b ∉ (u :: rest).drop 100 :=
        fun h => hb (List.drop_subset _ _ h)
      rw [add_chunk_all_ok hok hbt, andThen_none]
      rw [ih ((u :: rest).drop 100).length
        (by simp only [List.length_drop, List.length_cons] at hlen ⊢; omega)
        _ _ rfl hbd]
      simp only [Prod.mk.injEq, WriteSt.mk.injEq, List.length_take,
        List.length_drop, List.length_cons]
      refine ⟨⟨?_, by trivial⟩, by trivial⟩
      omega

theorem safe_add_items_count_one {call : List String → CallResult}
    {b mb : String}
    (hfail : ∀ chunk, b ∈ chunk → ∃ mm, call chunk = CallResult.spotifyErr mm)
    (hok : ∀ chunk, chunk ≠ [] → b ∉ chunk → call chunk = CallResult.ok)
    (hm : call [b] = CallResult.spotifyErr mb) :
    ∀ (n : Nat) (uris : List String) (st : WriteSt), uris.length = n →
      uris.count b = 1 →
      safe_add_items call uris st
        = (⟨st.added + uris.length - 1,
            st.recs ++ [(b, "add_failed:" ++ mb)]⟩, none) := by
  intro n
  induction n using Nat.strong_induction_on with
  | _ n ih =>
    intro uris st hlen hcount
    match uris, hlen with
    | [], _ => simp at hcount
    | u :: rest, hlen =>
      rw [safe_add_items]
      set L := u :: rest with hL
      have hsum : (L.take 100).count b + (L.drop 100).count b = 1 := by
        rw [← List.count_append, List.take_append_drop]
        exact hcount
      have htlen : (L.take 100).length = min 100 L.length := List.length_take _ _
      have hdlen : (L.drop 100).length = L.length - 100 := List.length_drop _ _
      have hLpos : 0 < L.length := by
        rw [hL]
        simp
      by_cases hbt : b ∈ L.take 100
      · have h1 : (L.take 100).count b = 1 := by
          have : 0 < (L.take 100).count b := List.count_pos_iff.mpr hbt
          omega
        have hbd : b ∉ L.drop 100 := by
          intro hmem
          have : 0 < (L.drop 100).count b := List.count_pos_iff.mpr hmem
          omega
        rw [add_chunk_count_one hfail hok hm (L.take 100).length _ st rfl h1,
          andThen_none]
        rw [safe_add_items_all_ok hok (L.drop 100).length _ _ rfl hbd]
        simp only [Prod.mk.injEq, WriteSt.mk.injEq, htlen, hdlen]
        refine ⟨⟨?_, by trivial⟩, by trivial⟩
        have hmin : 1 ≤ min 100 L.length := by omega
        omega
      · have h0 : (L.take 100).count b = 0 := by
          rcases Nat.eq_zero_or_pos ((L.take 100).count b) with h | h
          · exact h
          · exact absurd (List.count_pos_iff.mp h) hbt
        have h1 : (L.drop 100).count b = 1 := by omega
        have hdpos : 0 < (L.drop 100).length := by
          have : b ∈ L.drop 100 := List.count_pos_iff.mp (by omega)
          exact List.length_pos.mpr (List.ne_nil_of_mem this)
        rw [add_chunk_all_ok hok hbt, andThen_none]
        rw [ih (L.drop 100).length
          (by rw [hdlen]; subst hlen; omega)
          _ _ rfl h1]
        simp only [Prod.mk.injEq, WriteSt.mk.injEq, htlen, hdlen]
        refine ⟨⟨?_, by trivial⟩, by trivial⟩
        omega

theorem write_items_all_ok {call : List String → CallResult} {b : String}
    {bs : Nat} (hbs : bs ≠ 0)
    (hok : ∀ chunk, chunk ≠ [] → b ∉ chunk → call chunk = CallResult.ok) :
    ∀ (n : Nat) (uris : List String) (st : WriteSt), uris.length = n →
      b ∉ uris →
      write_items call bs uris st
        = (⟨st.added + uris.length, st.recs⟩, none) := by
  intro n
  induction n using Nat.strong_induction_on with
  | _ n ih =>
    intro uris st hlen hb
    match uris, hlen with
    | [], _ => simp [write_items]
    | u :: rest, hlen =>
      rw [write_items, dif_neg hbs]
      have hbt : b ∉ (u :: rest).take bs :=
        fun h => hb (List.take_subset _ _ h)
      have hbd : b ∉ (u :: rest).drop bs :=
        fun h => hb (List.drop_subset _ _ h)
      rw [safe_add_items_all_ok hok ((u :: rest).take bs).length _ _ rfl hbt,
        andThen_none]
      rw [ih ((u :: rest).drop bs).length
        (by simp only [List.length_drop, List.length_cons] at hlen ⊢; omega)
        _ _ rfl hbd]
      simp only [Prod.mk.injEq, WriteSt.mk.injEq, List.length_take,
        List.length_drop, List.length_cons]
      refine ⟨⟨?_, by trivial⟩, by trivial⟩
      omega

theorem write_items_count_one {call : List String → CallResult}
    {b mb : String} {bs : Nat} (hbs : bs ≠ 0)
    (hfail : ∀ chunk, b ∈ chunk → ∃ mm, call chunk = CallResult.spotifyErr mm)
    (hok : ∀ chunk, chunk ≠ [] → b ∉ chunk → call chunk = CallResult.ok)
    (hm : call [b] = CallResult.spotifyErr mb) :
    ∀ (n : Nat) (uris : List String) (st : WriteSt), uris.length = n →
      uris.count b = 1 →
      write_items call bs uris st
        = (⟨st.added + uris.length - 1,
            st.recs ++ [(b, "add_failed:" ++ mb)]⟩, none) := by
  intro n
  induction n using Nat.strong_induction_on with
  | _ n ih =>
    intro uris st hlen hcount
    match uris, hlen with
    | [], _ => simp at hcount
    | u :: rest, hlen =>
      rw [write_items, dif_neg hbs]
      set L := u :: rest with hL
      have hsum : (L.take bs).count b + (L.drop bs).count b = 1 := by
        rw [← List.count_append, List.take_append_drop]
        exact hcount
      have htlen : (L.take bs).length = min bs L.length := List.length_take _ _
      have hdlen : (L.drop bs).length = L.length - bs := List.length_drop _ _
      have hLpos : 0 < L.length := by
        rw [hL]
        simp
      by_cases hbt : b ∈ L.take bs
      · have h1 : (L.take bs).count b = 1 := by
          have : 0 < (L.take bs).count b := List.count_pos_iff.mpr hbt
          omega
        have hbd : b ∉ L.drop bs := by
          intro hmem
          have : 0 < (L.drop bs).count b := List.count_pos_iff.mpr hmem
          omega
        rw [safe_add_items_count_one hfail hok hm (L.take bs).length _ st rfl h1,
          andThen_none]
        rw [write_items_all_ok hbs hok (L.drop bs).length _ _ rfl hbd]
        simp only [Prod.mk.injEq, WriteSt.mk.injEq, htlen, hdlen]
        refine ⟨⟨?_, by trivial⟩, by trivial⟩
        have hmin : 1 ≤ min bs L.length := by omega
        omega
      · have h0 : (L.take bs).count b = 0 := by
          rcases Nat.eq_zero_or_pos ((L.take bs).count b) with h | h
          · exact h
          · exact absurd (List.count_pos_iff.mp h) hbt
        have h1 : (L.drop bs).count b = 1 := by omega
        rw [safe_add_items_all_ok hok (L.take bs).length _ _ rfl hbt,
          andThen_none]
        rw [ih (L.drop bs).length
          (by rw [hdlen]; subst hlen; omega)
          _ _ rfl h1]
        simp only [Prod.mk.injEq, WriteSt.mk.injEq, htlen, hdlen]
        refine ⟨⟨?_, by trivial⟩, by trivial⟩
        have hdpos : 0 < L.length - bs ∨ 1 ≤ min bs L.length := by omega
        omega

/-- **C1**: for every ordered list of locators and every (clamped, nonzero)
batch size, if the mutating capability rejects exactly one member — every
chunk containing it fails with a `SpotifyException`, the single-element call
on it fails with message `mb`, every chunk avoiding it succeeds — then the
write commits all other locators (`added = N - 1`) and the bad-uri ledger
receives exactly the one record `(b, "add_failed:" ++ mb)`; the midpoint
bisection with single-element base case is the `add_chunk` recursion
itself. -/
theorem writer_isolates_single_rejection
    (call : List String → CallResult) (uris : List String) (b mb : String)
    (bs : Nat) (hbs : 1 ≤ bs)
    (hcount : uris.count b = 1)
    (hfail : ∀ chunk, b ∈ chunk → ∃ mm, call chunk = CallResult.spotifyErr mm)
    (hok : ∀ chunk, chunk ≠ [] → b ∉ chunk → call chunk = CallResult.ok)
    (hm : call [b] = CallResult.spotifyErr mb) :
    write_items call bs uris ⟨0, []⟩
      = (⟨uris.length - 1, [(b, "add_failed:" ++ mb)]⟩, none) := by
  rw [write_items_count_one (by omega) hfail hok hm uris.length uris ⟨0, []⟩
    rfl hcount]
  simp

/-- Witness for `writer_isolates_single_rejection`: batch size 2, locators
`[a, b, c, d, e]` with `c` rejected — `added = 4`, ledger exactly `c`
(§8 Scenario D). -/
theorem writer_isolates_single_rejection_witness :
    write_items
        (fun chunk => if "spotify:track:c" ∈ chunk
          then CallResult.spotifyErr "Unsupported URL" else CallResult.ok)
        2
        ["spotify:track:a", "spotify:track:b", "spotify:track:c",
         "spotify:track:d", "spotify:track:e"] ⟨0, []⟩
      = (⟨4, [("spotify:track:c", "add_failed:" ++ "Unsupported URL")]⟩,
          none) :=
  writer_isolates_single_rejection _ _ "spotify:track:c" "Unsupported URL" 2
    (by omega) (by decide)
    (fun chunk hmem => ⟨"Unsupported URL", by rw [if_pos hmem]⟩)
    (fun chunk _ hnb => by rw [if_neg hnb])
    (by decide)

/-! ### Accounting: every submitted locator is either added or recorded -/

theorem add_chunk_accounting {call : List String → CallResult}
    (hno : ∀ chunk m, call chunk ≠ CallResult.otherErr m) :
    ∀ (n : Nat) (chunk : List String) (st : WriteSt), chunk.length = n →
      ∃ st', add_chunk call chunk st = (st', none)
        ∧ st'.added + st'.recs.length
            = st.added + st.recs.length + chunk.length
        ∧ ∃ tail, st'.recs = st.recs ++ tail := by
  intro n
  induction n using Nat.strong_induction_on with
  | _ n ih =>
    intro chunk st hlen
    match chunk, hlen with
    | [], _ =>
      exact ⟨st, by simp [add_chunk], by simp, [], by simp⟩
    | [c], hlen =>
      rcases hc : call [c] with _ | m | m
      · refine ⟨⟨st.added + 1, st.recs⟩, ?_,
          by simp only [List.length_singleton]; omega, [], by simp⟩
        rw [add_chunk, hc]
        rfl
      · refine ⟨⟨st.added, st.recs ++ [(c, "add_failed:" ++ m)]⟩, ?_, ?_,
          [(c, "add_failed:" ++ m)], rfl⟩
        · rw [add_chunk, hc]
        · simp only [List.length_append, List.length_cons, List.length_nil]
          omega
      · exact absurd hc (hno _ _)
    | c :: c2 :: cs2, hlen =>
      rcases hc : call (c :: c2 :: cs2) with _ | m | m
      · refine ⟨⟨st.added + (c :: c2 :: cs2).length, st.recs⟩, ?_,
          by dsimp only; omega, [], by simp⟩
        rw [add_chunk, hc]
      · rw [add_chunk, hc]
        dsimp only
        set L := c :: c2 :: cs2 with hL
        set mid := L.length / 2 with hmid
        have hlen2 : L.length = cs2.length + 2 := by
          rw [hL]
          simp
        have htlen : (L.take mid).length = mid := by
          rw [List.length_take]
          omega
        have hdlen : (L.drop mid).length = L.length - mid := List.length_drop _ _
        obtain ⟨st2, he2, hacc2, t2, ht2⟩ :=
          ih (L.take mid).length (by rw [htlen]; omega) (L.take mid) st rfl
        rw [he2, andThen_none]
        obtain ⟨st3, he3, hacc3, t3, ht3⟩ :=
          ih (L.drop mid).length (by rw [hdlen]; omega) (L.drop mid) st2 rfl
        rw [he3]
        refine ⟨st3, rfl, ?_, t2 ++ t3, ?_⟩
        · rw [htlen] at hacc2
          rw [hdlen] at hacc3
          omega
        · rw [ht3, ht2, List.append_assoc]
      · exact absurd hc (hno _ _)

theorem safe_add_items_accounting {call : List String → CallResult}
    (hno : ∀ chunk m, call chunk ≠ CallResult.otherErr m) :
    ∀ (n : Nat) (uris : List String) (st : WriteSt), uris.length = n →
      ∃ st', safe_add_items call uris st = (st', none)
        ∧ st'.added + st'.recs.length
            = st.added + st.recs.length + uris.length
        ∧ ∃ tail, st'.recs = st.recs ++ tail := by
  intro n
  induction n using Nat.strong_induction_on with
  | _ n ih =>
    intro uris st hlen
    match uris, hlen with
    | [], _ => exact ⟨st, by simp [safe_add_items], by simp, [], by simp⟩
    | u :: rest, hlen =>
      rw [safe_add_items]
      set L := u :: rest with hL
      have hLpos : 0 < L.length := by
        rw [hL]
        simp
      obtain ⟨st2, he2, hacc2, t2, ht2⟩ :=
        add_chunk_accounting hno (L.take 100).length (L.take 100) st rfl
      rw [he2, andThen_none]
      obtain ⟨st3, he3, hacc3, t3, ht3⟩ :=
        ih (L.drop 100).length
          (by rw [List.length_drop]; subst hlen; omega) (L.drop 100) st2 rfl
      rw [he3]
      refine ⟨st3, rfl, ?_, t2 ++ t3, ?_⟩
      · rw [List.length_take] at hacc2
        rw [List.length_drop] at hacc3
        omega
      · rw [ht3, ht2, List.append_assoc]

theorem write_items_accounting {call : List String → CallResult} {bs : Nat}
    (hbs : bs ≠ 0)
    (hno : ∀ chunk m, call chunk ≠ CallResult.otherErr m) :
    ∀ (n : Nat) (uris : List String) (st : WriteSt), uris.length = n →
      ∃ st', write_items call bs uris st = (st', none)
        ∧ st'.added + st'.recs.length
            = st.added + st.recs.length + uris.length
        ∧ ∃ tail, st'.recs = st.recs ++ tail := by
  intro n
  induction n using Nat.strong_induction_on with
  | _ n ih =>
    intro uris st hlen
    match uris, hlen with
    | [], _ => exact ⟨st, by simp [write_items], by simp, [], by simp⟩
    | u :: rest, hlen =>
      rw [write_items, dif_neg hbs]
      set L := u :: rest with hL
      have hLpos : 0 < L.length := by
        rw [hL]
        simp
      obtain ⟨st2, he2, hacc2, t2, ht2⟩ :=
        safe_add_items_accounting hno (L.take bs).length (L.take bs) st rfl
      rw [he2, andThen_none]
      obtain ⟨st3, he3, hacc3, t3, ht3⟩ :=
        ih (L.drop bs).length
          (by rw [List.length_drop]; subst hlen; omega) (L.drop bs) st2 rfl
      rw [he3]
      refine ⟨st3, rfl, ?_, t2 ++ t3, ?_⟩
      · rw [List.length_take] at hacc2
        rw [List.length_drop] at hacc3
        omega
      · rw [ht3, ht2, List.append_assoc]

/-- **C3**: for every ordered locator list handed to the writer (nonzero
batch size, mutating capability failing only as rejection, never with a
foreign exception), the write returns without raising and every locator is
accounted exactly once: `added` plus the number of ledger records produced
equals the input length. -/
theorem writer_accounts_every_locator
    (call : List String → CallResult) (bs : Nat) (uris : List String)
    (hbs : 1 ≤ bs)
    (hno : ∀ chunk m, call chunk ≠ CallResult.otherErr m) :
    ∃ st', write_items call bs uris ⟨0, []⟩ = (st', none)
      ∧ st'.added + st'.recs.length = uris.length := by
  obtain ⟨st', he, hacc, _, _⟩ :=
    @write_items_accounting call bs (by omega) hno uris.length uris ⟨0, []⟩ rfl
  refine ⟨st', he, ?_⟩
  simpa using hacc

/-- Witness for `writer_accounts_every_locator`: three locators, the middle
one rejected — added plus recorded is three. -/
theorem writer_accounts_every_locator_witness :
    ∃ st', write_items
        (fun chunk => if "spotify:track:b" ∈ chunk
          then CallResult.spotifyErr "rejected" else CallResult.ok)
        100
        ["spotify:track:a", "spotify:track:b", "spotify:track:c"] ⟨0, []⟩
      = (st', none)
      ∧ st'.added + st'.recs.length = 3 :=
  writer_accounts_every_locator _ 100 _ (by omega)
    (fun chunk m => by
      by_cases h : "spotify:track:b" ∈ chunk <;> simp [h])

/-! ### Shape of the records the writer can append

Independently of the capability's behaviour (including foreign exceptions),
every record the writer appends carries a note of the form
`add_failed:<detail>`. -/

theorem add_chunk_recs_shape (call : List String → CallResult) :
    ∀ (n : Nat) (chunk : List String) (st : WriteSt), chunk.length = n →
      ∃ tail, ((add_chunk call chunk st).1).recs = st.recs ++ tail
        ∧ ∀ r ∈ tail, ∃ mm, r.2 = "add_failed:" ++ mm := by
  intro n
  induction n using Nat.strong_induction_on with
  | _ n ih =>
    intro chunk st hlen
    match chunk, hlen with
    | [], _ => exact ⟨[], by simp [add_chunk], by simp⟩
    | [c], hlen =>
      rcases hc : call [c] with _ | m | m
      · refine ⟨[], ?_, by simp⟩
        rw [add_chunk, hc]
        simp
      · refine ⟨[(c, "add_failed:" ++ m)], ?_, ?_⟩
        · rw [add_chunk, hc]
        · intro r hr
          simp only [List.mem_singleton] at hr
          exact ⟨m, by rw [hr]⟩
      · refine ⟨[], ?_, by simp⟩
        rw [add_chunk, hc]
        simp
    | c :: c2 :: cs2, hlen =>
      rcases hc : call (c :: c2 :: cs2) with _ | m | m
      · refine ⟨[], ?_, by simp⟩
        rw [add_chunk, hc]
        simp
      · rw [add_chunk, hc]
        dsimp only
        set L := c :: c2 :: cs2 with hL
        set mid := L.length / 2 with hmid
        have hlen2 : L.length = cs2.length + 2 := by
          rw [hL]
          simp
        have htlen : (L.take mid).length = mid := by
          rw [List.length_take]
          omega
        have hdlen : (L.drop mid).length = L.length - mid := List.length_drop _ _
        obtain ⟨t2, ht2, hs2⟩ :=
          ih (L.take mid).length (by rw [htlen]; omega) (L.take mid) st rfl
        rcases hres : add_chunk call (L.take mid) st with ⟨st2, e2⟩
        rw [hres] at ht2
        simp only at ht2
        rcases e2 with _ | e2
        · rw [andThen_none]
          obtain ⟨t3, ht3, hs3⟩ :=
            ih (L.drop mid).length (by rw [hdlen]; omega) (L.drop mid) st2 rfl
          refine ⟨t2 ++ t3, ?_, ?_⟩
          · rw [ht3, ht2, List.append_assoc]
          · intro r hr
            rcases List.mem_append.mp hr with hr | hr
            · exact hs2 r hr
            · exact hs3 r hr
        · rw [andThen_some]
          exact ⟨t2, ht2, hs2⟩
      · refine ⟨[], ?_, by simp⟩
        rw [add_chunk, hc]
        simp

theorem safe_add_items_recs_shape (call : List String → CallResult) :
    ∀ (n : Nat) (uris : List String) (st : WriteSt), uris.length = n →
      ∃ tail, ((safe_add_items call uris st).1).recs = st.recs ++ tail
        ∧ ∀ r ∈ tail, ∃ mm, r.2 = "add_failed:" ++ mm := by
  intro n
  induction n using Nat.strong_induction_on with
  | _ n ih =>
    intro uris st hlen
    match uris, hlen with
    | [], _ => exact ⟨[], by simp [safe_add_items], by simp⟩
    | u :: rest, hlen =>
      rw [safe_add_items]
      set L := u :: rest with hL
      have hLpos : 0 < L.length := by
        rw [hL]
        simp
      obtain ⟨t2, ht2, hs2⟩ :=
        add_chunk_recs_shape call (L.take 100).length (L.take 100) st rfl
      rcases hres : add_chunk call (L.take 100) st with ⟨st2, e2⟩
      rw [hres] at ht2
      simp only at ht2
      rcases e2 with _ | e2
      · rw [andThen_none]
        obtain ⟨t3, ht3, hs3⟩ :=
          ih (L.drop 100).length
            (by rw [List.length_drop]; subst hlen; omega) (L.drop 100) st2 rfl
        refine ⟨t2 ++ t3, ?_, ?_⟩
        · rw [ht3, ht2, List.append_assoc]
        · intro r hr
          rcases List.mem_append.mp hr with hr | hr
          · exact hs2 r hr
          · exact hs3 r hr
      · rw [andThen_some]
        exact ⟨t2, ht2, hs2⟩

theorem write_items_recs_shape (call : List String → CallResult) (bs : Nat) :
    ∀ (n : Nat) (uris : List String) (st : WriteSt), uris.length = n →
      ∃ tail, ((write_items call bs uris st).1).recs = st.recs ++ tail
        ∧ ∀ r ∈ tail, ∃ mm, r.2 = "add_failed:" ++ mm := by
  intro n
  induction n using Nat.strong_induction_on with
  | _ n ih =>
    intro uris st hlen
    match uris, hlen with
    | [], _ => exact ⟨[], by simp [write_items], by simp⟩
    | u :: rest, hlen =>
      rw [write_items]
      by_cases hbs : bs = 0
      · rw [dif_pos hbs]
        exact ⟨[], by simp, by simp⟩
      · rw [dif_neg hbs]
        set L := u :: rest with hL
        have hLpos : 0 < L.length := by
          rw [hL]
          simp
        obtain ⟨t2, ht2, hs2⟩ :=
          safe_add_items_recs_shape call (L.take bs).length (L.take bs) st rfl
        rcases hres : safe_add_items call (L.take bs) st with ⟨st2, e2⟩
        rw [hres] at ht2
        simp only at ht2
        rcases e2 with _ | e2
        · rw [andThen_none]
          obtain ⟨t3, ht3, hs3⟩ :=
            ih (L.drop bs).length
              (by rw [List.length_drop]; subst hlen; omega) (L.drop bs) st2 rfl
          refine ⟨t2 ++ t3, ?_, ?_⟩
          · rw [ht3, ht2, List.append_assoc]
          · intro r hr
            rcases List.mem_append.mp hr with hr | hr
            · exact hs2 r hr
            · exact hs3 r hr
        · rw [andThen_some]
          exact ⟨t2, ht2, hs2⟩

/-! ## Job orchestrator (`app.py`, `start_job` / `worker`)

The worker composes the scan-classify-dedup-write pipeline.  External calls
are modelled as data supplied by an `Env`:

* `current_user` — `sp.current_user()` yielding `(id, country)`;
* `resolve_only` — `sp.playlist(norm, fields=...)` keyed by the normalized id;
* `user_playlists` — `iter_user_playlists` (the worker applies the cap);
* `counts` — `playlist_total_tracks` per playlist (failures swallowed);
* `liked_total` — the `current_user_saved_tracks(limit=1)` total;
* `playlist_items` — the items a playlist's pagination yields, plus an
  optional page-fetch error raised after them;
* `liked_items` — likewise for the saved-tracks library;
* `create_playlist` — `sp.user_playlist_create`, yielding the new id;
* `add_call` — `sp.playlist_add_items` per chunk (see the writer);
* `today` — `datetime.date.today().isoformat()`.

Each mutation of the shared `JOBS[job_id]` record (progress bumps, csv rows,
bad-uri rows, the terminal status write) is emitted as an event; replaying
the trace over the initial job record gives the job as a status query sees
it at any point. -/

structure PlRef where
  id : String
  /-- `pl.get("name", pid)` falls back to the id when absent. -/
  name : Option String
  deriving Repr, DecidableEq

structure ScanItem where
  added_at : Option String
  track : Option Track
  deriving Repr, DecidableEq

/-- One `csv_rows` entry; the display-only `track_name`/`artists`/`album`
fields are omitted (inert strings, no control flow). -/
structure Row where
  source : String
  added_at : Option String
  track_uri : String
  track_id : String
  reason : String
  deriving Repr, DecidableEq

def row_of (source : String) (it : ScanItem) (reason : String) : Row :=
  { source := source
    added_at := it.added_at
    track_uri := (it.track.bind Track.uri).getD ""
    track_id := (it.track.bind Track.id).getD ""
    reason := reason }

/-- `URI_RE = ^spotify:track:[0-9A-Za-z]\x7b22\x7d$`. -/
def valid_track_uri (u : String) : Bool :=
  "spotify:track:".toList.isPrefixOf u.data && id22 (u.data.drop 14)

inductive Ev where
  | setTotal : Nat → Ev
  | bump : Nat → Ev
  | csvRow : Row → Ev
  | badUri : String → String → Ev
  | setDone : String → Option String → Ev
  | setError : String → Ev
  deriving Repr, DecidableEq

def Ev.isTerminal : Ev → Bool
  | Ev.setDone _ _ => true
  | Ev.setError _ => true
  | _ => false

/-- The events a worker stage may emit before the terminal one. -/
def evOk (e : Ev) : Prop :=
  e.isTerminal = false ∧ ∀ d, e = Ev.bump d → d = 1

/-- The only events the scan phase emits: a csv row or a progress bump of
one. -/
def scanEv (e : Ev) : Prop :=
  (∃ r, e = Ev.csvRow r) ∨ e = Ev.bump 1

theorem evOk_of_scanEv {e : Ev} (h : scanEv e) : evOk e := by
  rcases h with ⟨r, rfl⟩ | rfl
  · exact ⟨rfl, fun d hd => by cases hd⟩
  · exact ⟨rfl, fun d hd => by cases hd; rfl⟩

theorem scanEv_not_badUri {e : Ev} (h : scanEv e) (u note : String) :
    e ≠ Ev.badUri u note := by
  rcases h with ⟨r, rfl⟩ | rfl <;> intro hc <;> cases hc

def rowEv : Ev → Option Row
  | Ev.csvRow r => some r
  | _ => none

def badEv : Ev → Option (String × String)
  | Ev.badUri u note => some (u, note)
  | _ => none

def rowsOf (evs : List Ev) : List Row := evs.filterMap rowEv

def badsOf (evs : List Ev) : List (String × String) := evs.filterMap badEv

def csvCount (evs : List Ev) : Nat := (rowsOf evs).length

def badUriCount (evs : List Ev) : Nat := (badsOf evs).length

def bumpSum (evs : List Ev) : Nat :=
  (evs.map fun e => match e with
    | Ev.bump d => d
    | _ => 0).sum

structure Params where
  only_pl_id : Option String
  max_playlists : Option Nat
  dry_run : Bool
  batch_size : Nat

structure Env where
  current_user : Except String (String × Option String)
  resolve_only : String → Except String PlRef
  user_playlists : Except String (List PlRef)
  counts : String → Except String Nat
  liked_total : Except String Nat
  playlist_items : String → List ScanItem × Option String
  liked_items : List ScanItem × Option String
  create_playlist : Except String String
  add_call : List String → CallResult
  today : String

/-! ### Scan phase -/

/-- Worker-local scan state: `seen_uris`, `good_uris`, emitted events. -/
structure ScanSt where
  seen : List String
  good : List String
  evs : List Ev

/-- The candidate block: `if uri and URI_RE.match(uri) and uri not in
seen_uris: seen.add; good.append` — the dedup guard is `offer_uri`. -/
def scan_candidate (st : ScanSt) : Option String → ScanSt
  | some u =>
    if valid_track_uri u then
      ⟨(offer_uri (st.seen, st.good) u).1,
       (offer_uri (st.seen, st.good) u).2, st.evs⟩
    else st
  | none => st

/-- One item of the scan loop: classify, on unavailable append a csv row and
offer the locator, then bump progress by one regardless of outcome. -/
def process_item (country : Option String) (source : String) (st : ScanSt)
    (it : ScanItem) : ScanSt :=
  let st1 :=
    if (is_unavailable_with_reason it.track country).1 then
      scan_candidate
        { st with evs := st.evs ++ [Ev.csvRow (row_of source it
            (is_unavailable_with_reason it.track country).2)] }
        (it.track.bind Track.uri)
    else st
  { st1 with evs := st1.evs ++ [Ev.bump 1] }

def scan_one (country : Option String) (source : String) (st : ScanSt)
    (items : List ScanItem) : ScanSt :=
  items.foldl (process_item country source) st

/-- Scan each playlist's items; a page-fetch error propagates after the
already-delivered items were processed, aborting the remaining playlists. -/
def scan_pls (env : Env) (country : Option String) :
    List PlRef → ScanSt → ScanSt × Option String
  | [], st => (st, none)
  | p :: rest, st =>
    let st2 := scan_one country (p.name.getD p.id) st (env.playlist_items p.id).1
    match (env.playlist_items p.id).2 with
    | some e => (st2, some e)
    | none => scan_pls env country rest st2

/-- Playlists, then the always-scanned "Liked Songs" library. -/
def full_scan (env : Env) (country : Option String) (pls : List PlRef) :
    ScanSt × Option String :=
  match scan_pls env country pls ⟨[], [], []⟩ with
  | (st1, some e) => (st1, some e)
  | (st1, none) =>
    (scan_one country "Liked Songs" st1 env.liked_items.1, env.liked_items.2)

/-! ### Resolution, estimation, filtering, summaries -/

/-- `iter_user_playlists` caps only when `max_playlists` is truthy. -/
def cap_playlists (m : Option Nat) (l : List PlRef) : List PlRef :=
  match m with
  | none => l
  | some k => if k = 0 then l else l.take k

def resolve_playlists (env : Env) (params : Params) :
    Except String (List PlRef) :=
  match params.only_pl_id with
  | some s =>
    if s = "" then (env.user_playlists).map (cap_playlists params.max_playlists)
    else (env.resolve_only (normalize_playlist_id s)).map (fun pl => [pl])
  | none => (env.user_playlists).map (cap_playlists params.max_playlists)

/-- The best-effort total estimate: per-playlist count failures are
swallowed. -/
def estimate_total (env : Env) (pls : List PlRef) : Nat :=
  pls.foldl (fun acc p => match env.counts p.id with
    | .ok k => acc + k
    | .error _ => acc) 0

/-- The pre-write re-validation over `good_uris`
(`for u in good_uris: if URI_RE.match(u) ... else add_bad_uri_row(u,
"invalid_uri_format")`): returns `(filtered_uris, skipped_invalid,
events)`. -/
def filter_step (acc : List String × Nat × List Ev) (u : String) :
    List String × Nat × List Ev :=
  if valid_track_uri u then (acc.1 ++ [u], acc.2.1, acc.2.2)
  else (acc.1, acc.2.1 + 1, acc.2.2 ++ [Ev.badUri u "invalid_uri_format"])

def filter_good (good : List String) : List String × Nat × List Ev :=
  good.foldl filter_step ([], 0, [])

def dry_run_summary (goodCount skipped csvCnt : Nat) : String :=
  "[DRY RUN] Плейлист НЕ создавался.\n"
  ++ "Годных для добавления URI: " ++ Nat.repr goodCount ++ "\n"
  ++ "Пропущено из-за неверного формата: " ++ Nat.repr skipped ++ "\n"
  ++ "Всего недоступных (для CSV): " ++ Nat.repr csvCnt

def live_summary (today url : String) (added skipped badCnt csvCnt : Nat) :
    String :=
  "Создан плейлист: Недоступные треки — " ++ today ++ "\n"
  ++ "URI: " ++ url ++ "\n"
  ++ "Добавлено треков: " ++ Nat.repr added ++ "\n"
  ++ "Отброшено по формату: " ++ Nat.repr skipped ++ "\n"
  ++ "Проблемных при добавлении (см. CSV baduris): " ++ Nat.repr badCnt ++ "\n"
  ++ "Всего недоступных (в выгрузке CSV): " ++ Nat.repr csvCnt

/-! ### The worker body and its trace -/

inductive Outcome where
  | done : String → Option String → Outcome
  | err : String → Outcome
  deriving Repr, DecidableEq

def terminal_event : Outcome → Ev
  | Outcome.done r url => Ev.setDone r url
  | Outcome.err m => Ev.setError m

/-- The worker's continuation after a successful scan: re-filter the
candidates, then either summarize (dry run) or create the playlist and run
the batched writer. -/
def after_scan (env : Env) (params : Params) (tot : Nat) (st : ScanSt) :
    List Ev × Outcome :=
  let f := filter_good st.good
  let evs3 := Ev.setTotal tot :: st.evs ++ f.2.2
  if params.dry_run then
    (evs3, .done (dry_run_summary f.1.length f.2.1 (csvCount evs3)) none)
  else
    match env.create_playlist with
    | .error e => (evs3, .err e)
    | .ok new_pid =>
      let url := "https://open.spotify.com/playlist/" ++ new_pid
      let w := write_items env.add_call params.batch_size f.1 ⟨0, []⟩
      let evs4 := evs3 ++ (w.1).recs.map (fun r => Ev.badUri r.1 r.2)
      match w.2 with
      | some e => (evs4, .err e)
      | none =>
        (evs4,
         .done (live_summary env.today url (w.1).added f.2.1
           (badUriCount evs4) (csvCount evs4)) (some url))

def worker_body (env : Env) (params : Params) : List Ev × Outcome :=
  match env.current_user with
  | .error e => ([], .err e)
  | .ok (_uid, country) =>
    match resolve_playlists env params with
    | .error e => ([], .err e)
    | .ok pls =>
      match env.liked_total with
      | .error e => ([], .err e)
      | .ok lt =>
        let tot := estimate_total env pls + lt
        match full_scan env country pls with
        | (st, some e) => (Ev.setTotal tot :: st.evs, .err e)
        | (st, none) =>
          after_scan env params tot st

/-- The full sequence of shared-state mutations one worker run performs:
the body's events followed by the single terminal status write (`done` in
the normal path, `error: <e>` from the top-level `except`). -/
def worker_trace (env : Env) (params : Params) : List Ev :=
  (worker_body env params).1 ++ [terminal_event (worker_body env params).2]

/-! ### The job record and trace replay -/

structure Job where
  status : String
  processed : Nat
  total : Nat
  result : Option String
  playlist_url : Option String
  csv_rows : List Row
  bad_uri_rows : List (String × String)
  deriving Repr, DecidableEq

/-- The record `start_job` installs under the lock before the worker
starts. -/
def initial_job : Job := ⟨"running", 0, 0, none, none, [], []⟩

def applyEv (j : Job) : Ev → Job
  | Ev.setTotal nn => { j with total := nn }
  | Ev.bump d => { j with processed := j.processed + d }
  | Ev.csvRow r => { j with csv_rows := j.csv_rows ++ [r] }
  | Ev.badUri u note => { j with bad_uri_rows := j.bad_uri_rows ++ [(u, note)] }
  | Ev.setDone r url =>
      { j with status := "done", result := some r, playlist_url := url }
  | Ev.setError m => { j with status := "error: " ++ m }

def runTrace (j : Job) (evs : List Ev) : Job := evs.foldl applyEv j

/-! ### Generic replay lemmas -/

theorem runTrace_append (j : Job) (l1 l2 : List Ev) :
    runTrace j (l1 ++ l2) = runTrace (runTrace j l1) l2 :=
  List.foldl_append _ _ _ _

theorem applyEv_processed_le (j : Job) (e : Ev) :
    j.processed ≤ (applyEv j e).processed := by
  cases e <;> simp [applyEv]

theorem runTrace_processed_mono (evs : List Ev) (j : Job) :
    j.processed ≤ (runTrace j evs).processed := by
  induction evs generalizing j with
  | nil => exact le_refl _
  | cons e rest ih =>
    exact le_trans (applyEv_processed_le j e) (ih (applyEv j e))

theorem bumpSum_append (a b : List Ev) :
    bumpSum (a ++ b) = bumpSum a + bumpSum b := by
  simp [bumpSum]

theorem runTrace_processed_sum (evs : List Ev) (j : Job) :
    (runTrace j evs).processed = j.processed + bumpSum evs := by
  induction evs generalizing j with
  | nil => simp [runTrace, bumpSum]
  | cons e rest ih =>
    show (runTrace (applyEv j e) rest).processed = _
    rw [ih]
    cases e <;> simp [applyEv, bumpSum] <;> omega

theorem runTrace_csv (evs : List Ev) (j : Job) :
    (runTrace j evs).csv_rows = j.csv_rows ++ rowsOf evs := by
  induction evs generalizing j with
  | nil => simp [runTrace, rowsOf]
  | cons e rest ih =>
    show (runTrace (applyEv j e) rest).csv_rows = _
    rw [ih]
    cases e <;> simp [applyEv, rowsOf, rowEv, List.filterMap_cons]

theorem runTrace_bad (evs : List Ev) (j : Job) :
    (runTrace j evs).bad_uri_rows = j.bad_uri_rows ++ badsOf evs := by
  induction evs generalizing j with
  | nil => simp [runTrace, badsOf]
  | cons e rest ih =>
    show (runTrace (applyEv j e) rest).bad_uri_rows = _
    rw [ih]
    cases e <;> simp [applyEv, badsOf, badEv, List.filterMap_cons]

theorem runTrace_status_no_terminal (evs : List Ev) (j : Job)
    (h : ∀ e ∈ evs, e.isTerminal = false) :
    (runTrace j evs).status = j.status := by
  induction evs generalizing j with
  | nil => rfl
  | cons e rest ih =>
    show (runTrace (applyEv j e) rest).status = _
    rw [ih _ (fun x hx => h x (List.mem_cons_of_mem _ hx))]
    have he := h e (List.mem_cons_self _ _)
    cases e <;> first
      | rfl
      | simp [Ev.isTerminal] at he

/-! ### Scan stage lemmas -/

theorem scan_candidate_evs (st : ScanSt) (u : Option String) :
    (scan_candidate st u).evs = st.evs := by
  rcases u with _ | u
  · rfl
  · rw [scan_candidate]
    split <;> rfl

theorem scan_candidate_good {st : ScanSt} {u : Option String}
    (h : ∀ x ∈ st.good, valid_track_uri x = true) :
    ∀ x ∈ (scan_candidate st u).good, valid_track_uri x = true := by
  rcases u with _ | u
  · exact h
  · rw [scan_candidate]
    by_cases hv : valid_track_uri u
    · rw [if_pos hv]
      by_cases hm : u ∈ st.seen
      · rw [offer_uri_mem hm]
        exact h
      · rw [offer_uri_new hm]
        intro x hx
        have hx' : x ∈ st.good ++ [u] := hx
        rcases List.mem_append.mp hx' with hx | hx
        · exact h x hx
        · simp only [List.mem_singleton] at hx
          rw [hx]
          exact hv
    · rw [if_neg hv]
      exact h

theorem process_item_evs (country : Option String) (source : String)
    (st : ScanSt) (it : ScanItem) :
    (process_item country source st it).evs
      = st.evs
        ++ ((if (is_unavailable_with_reason it.track country).1
            then [Ev.csvRow (row_of source it
              (is_unavailable_with_reason it.track country).2)] else [])
          ++ [Ev.bump 1]) := by
  unfold process_item
  by_cases hres : (is_unavailable_with_reason it.track country).1
  · rw [if_pos hres, if_pos hres]
    dsimp only
    rw [scan_candidate_evs]
    simp
  · rw [if_neg hres, if_neg hres]
    simp

theorem process_item_good {country : Option String} {source : String}
    {st : ScanSt} {it : ScanItem}
    (h : ∀ x ∈ st.good, valid_track_uri x = true) :
    ∀ x ∈ (process_item country source st it).good,
      valid_track_uri x = true := by
  unfold process_item
  dsimp only
  by_cases hres : (is_unavailable_with_reason it.track country).1
  · rw [if_pos hres]
    exact scan_candidate_good h
  · rw [if_neg hres]
    exact h

theorem scan_one_evs (country : Option String) (source : String) :
    ∀ (items : List ScanItem) (st : ScanSt),
      ∃ new, (scan_one country source st items).evs = st.evs ++ new
        ∧ (∀ e ∈ new, scanEv e) ∧ bumpSum new = items.length := by
  intro items
  induction items with
  | nil =>
    exact fun st => ⟨[], by simp [scan_one], by simp, by simp [bumpSum]⟩
  | cons it rest ih =>
    intro st
    obtain ⟨new2, h2, hok2, hsum2⟩ := ih (process_item country source st it)
    refine ⟨((if (is_unavailable_with_reason it.track country).1
        then [Ev.csvRow (row_of source it
          (is_unavailable_with_reason it.track country).2)] else [])
      ++ [Ev.bump 1]) ++ new2, ?_, ?_, ?_⟩
    · show (scan_one country source (process_item country source st it)
          rest).evs = _
      rw [h2, process_item_evs]
      simp [List.append_assoc]
    · intro e he
      rcases List.mem_append.mp he with he | he
      · rcases List.mem_append.mp he with he | he
        · revert he
          split
          · intro he
            simp only [List.mem_singleton] at he
            rw [he]
            exact Or.inl ⟨_, rfl⟩
          · intro he
            simp at he
        · simp only [List.mem_singleton] at he
          rw [he]
          exact Or.inr rfl
      · exact hok2 e he
    · rw [bumpSum_append, bumpSum_append, hsum2]
      have hif : bumpSum (if (is_unavailable_with_reason it.track country).1
          then [Ev.csvRow (row_of source it
            (is_unavailable_with_reason it.track country).2)] else [])
          = 0 := by
        split <;> simp [bumpSum]
      rw [hif]
      simp [bumpSum, List.length_cons]
      omega

theorem scan_one_good {country : Option String} {source : String} :
    ∀ {items : List ScanItem} {st : ScanSt},
      (∀ x ∈ st.good, valid_track_uri x = true) →
      ∀ x ∈ (scan_one country source st items).good,
        valid_track_uri x = true := by
  intro items
  induction items with
  | nil => exact fun h => h
  | cons it rest ih =>
    intro st h
    exact ih (process_item_good h)

theorem scan_pls_evs (env : Env) (country : Option String) :
    ∀ (pls : List PlRef) (st : ScanSt),
      ∃ new, ((scan_pls env country pls st).1).evs = st.evs ++ new
        ∧ ∀ e ∈ new, scanEv e := by
  intro pls
  induction pls with
  | nil => exact fun st => ⟨[], by simp [scan_pls], by simp⟩
  | cons p rest ih =>
    intro st
    obtain ⟨new1, h1, hok1, _⟩ :=
      scan_one_evs country (p.name.getD p.id) (env.playlist_items p.id).1 st
    rw [scan_pls]
    rcases hpe : (env.playlist_items p.id).2 with _ | e
    · obtain ⟨new2, h2, hok2⟩ :=
        ih (scan_one country (p.name.getD p.id) st (env.playlist_items p.id).1)
      refine ⟨new1 ++ new2, ?_, ?_⟩
      · rw [h2, h1, List.append_assoc]
      · intro e he
        rcases List.mem_append.mp he with he | he
        · exact hok1 e he
        · exact hok2 e he
    · exact ⟨new1, h1, hok1⟩

theorem scan_pls_ok (env : Env) (country : Option String) :
    ∀ (pls : List PlRef) (st : ScanSt),
      (∀ p ∈ pls, (env.playlist_items p.id).2 = none) →
      ∃ st', scan_pls env country pls st = (st', none)
        ∧ ∃ new, st'.evs = st.evs ++ new ∧ (∀ e ∈ new, scanEv e)
          ∧ bumpSum new
              = (pls.map (fun p => (env.playlist_items p.id).1.length)).sum := by
  intro pls
  induction pls with
  | nil =>
    exact fun st _ => ⟨st, by simp [scan_pls], [], by simp, by simp,
      by simp [bumpSum]⟩
  | cons p rest ih =>
    intro st hp
    obtain ⟨new1, h1, hok1, hsum1⟩ :=
      scan_one_evs country (p.name.getD p.id) (env.playlist_items p.id).1 st
    rw [scan_pls]
    rw [hp p (List.mem_cons_self _ _)]
    obtain ⟨st', he', new2, h2, hok2, hsum2⟩ :=
      ih (scan_one country (p.name.getD p.id) st (env.playlist_items p.id).1)
        (fun q hq => hp q (List.mem_cons_of_mem _ hq))
    refine ⟨st', he', new1 ++ new2, ?_, ?_, ?_⟩
    · rw [h2, h1, List.append_assoc]
    · intro e he
      rcases List.mem_append.mp he with he | he
      · exact hok1 e he
      · exact hok2 e he
    · rw [bumpSum_append, hsum1, hsum2]
      simp

theorem scan_pls_good (env : Env) (country : Option String) :
    ∀ (pls : List PlRef) (st : ScanSt),
      (∀ x ∈ st.good, valid_track_uri x = true) →
      ∀ x ∈ ((scan_pls env country pls st).1).good,
        valid_track_uri x = true := by
  intro pls
  induction pls with
  | nil => exact fun st h => h
  | cons p rest ih =>
    intro st h
    rw [scan_pls]
    rcases hpe : (env.playlist_items p.id).2 with _ | e
    · exact ih _ (scan_one_good h)
    · exact scan_one_good h

/-- Unconditionally, the full scan emits only benign events. -/
theorem full_scan_evs (env : Env) (country : Option String)
    (pls : List PlRef) :
    ∃ new, ((full_scan env country pls).1).evs = new
      ∧ ∀ e ∈ new, scanEv e := by
  unfold full_scan
  rcases hsp : scan_pls env country pls ⟨[], [], []⟩ with ⟨st1, serr⟩
  obtain ⟨new1, h1, hok1⟩ := scan_pls_evs env country pls ⟨[], [], []⟩
  rw [hsp] at h1
  simp only at h1
  rcases serr with _ | e
  · obtain ⟨new2, h2, hok2, _⟩ :=
      scan_one_evs country "Liked Songs" env.liked_items.1 st1
    refine ⟨new1 ++ new2, ?_, ?_⟩
    · rw [h2, h1]
      simp
    · intro e he
      rcases List.mem_append.mp he with he | he
      · exact hok1 e he
      · exact hok2 e he
  · refine ⟨new1, by rw [h1]; simp, hok1⟩

/-- With no page-fetch failures, the full scan succeeds and bumps progress
exactly once per enumerated item. -/
theorem full_scan_ok (env : Env) (country : Option String) (pls : List PlRef)
    (hp : ∀ p ∈ pls, (env.playlist_items p.id).2 = none)
    (hl : (env.liked_items).2 = none) :
    ∃ st', full_scan env country pls = (st', none)
      ∧ ∃ new, st'.evs = new ∧ (∀ e ∈ new, scanEv e)
        ∧ bumpSum new
            = (pls.map (fun p => (env.playlist_items p.id).1.length)).sum
              + (env.liked_items).1.length := by
  unfold full_scan
  obtain ⟨st1, he1, new1, h1, hok1, hsum1⟩ :=
    scan_pls_ok env country pls ⟨[], [], []⟩ hp
  rw [he1]
  obtain ⟨new2, h2, hok2, hsum2⟩ :=
    scan_one_evs country "Liked Songs" env.liked_items.1 st1
  rw [hl]
  refine ⟨_, rfl, new1 ++ new2, ?_, ?_, ?_⟩
  · rw [h2, h1]
    simp
  · intro e he
    rcases List.mem_append.mp he with he | he
    · exact hok1 e he
    · exact hok2 e he
  · rw [bumpSum_append, hsum1, hsum2]

/-- The candidate list coming out of the full scan contains only
format-valid locators (it starts empty and the scan offers only validated
ones). -/
theorem full_scan_good (env : Env) (country : Option String)
    (pls : List PlRef) :
    ∀ x ∈ ((full_scan env country pls).1).good, valid_track_uri x = true := by
  unfold full_scan
  rcases hsp : scan_pls env country pls ⟨[], [], []⟩ with ⟨st1, serr⟩
  have hg1 : ∀ x ∈ st1.good, valid_track_uri x = true := by
    have := scan_pls_good env country pls ⟨[], [], []⟩ (by simp)
    rw [hsp] at this
    exact this
  rcases serr with _ | e
  · exact scan_one_good hg1
  · exact hg1

/-! ### Filter stage lemmas -/

theorem filter_fold_all_valid :
    ∀ (g : List String) (acc : List String × Nat × List Ev),
      (∀ u ∈ g, valid_track_uri u = true) →
      g.foldl filter_step acc = (acc.1 ++ g, acc.2.1, acc.2.2) := by
  intro g
  induction g with
  | nil => intro acc _; simp
  | cons u rest ih =>
    intro acc h
    simp only [List.foldl_cons]
    rw [show filter_step acc u = (acc.1 ++ [u], acc.2.1, acc.2.2) from by
      unfold filter_step
      rw [if_pos (h u (List.mem_cons_self _ _))]]
    rw [ih _ (fun x hx => h x (List.mem_cons_of_mem _ hx))]
    simp

/-- On an all-valid candidate list the re-filter is the identity: nothing
skipped, no `invalid_uri_format` record. -/
theorem filter_good_all_valid {g : List String}
    (h : ∀ u ∈ g, valid_track_uri u = true) :
    filter_good g = (g, 0, []) := by
  unfold filter_good
  rw [filter_fold_all_valid g _ h]
  simp

theorem filter_fold_events :
    ∀ (g : List String) (acc : List String × Nat × List Ev),
      ∀ e ∈ (g.foldl filter_step acc).2.2,
        e ∈ acc.2.2 ∨ ∃ u, e = Ev.badUri u "invalid_uri_format" := by
  intro g
  induction g with
  | nil => intro acc e he; exact Or.inl he
  | cons u rest ih =>
    intro acc e he
    simp only [List.foldl_cons] at he
    rcases ih (filter_step acc u) e he with hmem | hbad
    · unfold filter_step at hmem
      split at hmem
      · exact Or.inl hmem
      · have hmem' : e ∈ acc.2.2 ++ [Ev.badUri u "invalid_uri_format"] := hmem
        rcases List.mem_append.mp hmem' with hm | hm
        · exact Or.inl hm
        · simp only [List.mem_singleton] at hm
          exact Or.inr ⟨u, hm⟩
    · exact Or.inr hbad

/-! ### Worker-level lemmas -/

theorem evOk_setTotal (n : Nat) : evOk (Ev.setTotal n) :=
  ⟨rfl, fun d hd => by cases hd⟩

theorem evOk_badUri (u note : String) : evOk (Ev.badUri u note) :=
  ⟨rfl, fun d hd => by cases hd⟩

/-- Under the given stage results the worker body is exactly the post-scan
continuation. -/
theorem worker_body_eq_after_scan {env : Env} {params : Params}
    {uid : String} {country : Option String} {pls : List PlRef} {lt : Nat}
    {st : ScanSt}
    (hcu : env.current_user = Except.ok (uid, country))
    (hres : resolve_playlists env params = Except.ok pls)
    (hlt : env.liked_total = Except.ok lt)
    (hfs : full_scan env country pls = (st, none)) :
    worker_body env params
      = after_scan env params (estimate_total env pls + lt) st := by
  simp only [worker_body, hcu, hres, hlt, hfs]

/-- Every event the worker body emits is a total estimate, a scan event, or
a writer `add_failed` record; in particular no `invalid_uri_format` record
is ever emitted, because the pre-write re-filter runs over the
already-validated candidate list. -/
theorem worker_body_events (env : Env) (params : Params) :
    ∀ e ∈ (worker_body env params).1,
      (∃ n, e = Ev.setTotal n) ∨ scanEv e
      ∨ ∃ u mm, e = Ev.badUri u ("add_failed:" ++ mm) := by
  intro e he
  rcases hcu : env.current_user with er | uc
  · simp only [worker_body, hcu] at he
    simp at he
  · rcases uc with ⟨uid, country⟩
    simp only [worker_body, hcu] at he
    rcases hres : resolve_playlists env params with er | pls
    · simp only [hres] at he
      simp at he
    · simp only [hres] at he
      rcases hlt : env.liked_total with er | lt
      · simp only [hlt] at he
        simp at he
      · simp only [hlt] at he
        rcases hfs : full_scan env country pls with ⟨st, serr⟩
        have hstevs : ∀ x ∈ st.evs, scanEv x := by
          obtain ⟨new, hnew, hok⟩ := full_scan_evs env country pls
          rw [hfs] at hnew
          simp only at hnew
          intro x hx
          rw [hnew] at hx
          exact hok x hx
        rcases serr with _ | er
        · simp only [hfs] at he
          have hgood : ∀ u ∈ st.good, valid_track_uri u = true := by
            have hg := full_scan_good env country pls
            rw [hfs] at hg
            exact hg
          have hf : filter_good st.good = (st.good, 0, []) :=
            filter_good_all_valid hgood
          by_cases hdry : params.dry_run
          · simp only [after_scan, hf, hdry, if_true] at he
            rcases List.mem_cons.mp he with rfl | he
            · exact Or.inl ⟨_, rfl⟩
            · rcases List.mem_append.mp he with he | he
              · exact Or.inr (Or.inl (hstevs e he))
              · simp at he
          · rcases hcp : env.create_playlist with er | pid
            · simp only [after_scan, hf, hdry, if_false, hcp] at he
              rcases List.mem_cons.mp he with rfl | he
              · exact Or.inl ⟨_, rfl⟩
              · rcases List.mem_append.mp he with he | he
                · exact Or.inr (Or.inl (hstevs e he))
                · simp at he
            · simp only [after_scan, hf, hdry, if_false, hcp] at he
              rcases hw2 : (write_items env.add_call params.batch_size
                  st.good ⟨0, []⟩).2 with _ | er
              all_goals {
                simp only [hw2] at he
                rcases List.mem_append.mp he with he | he
                · rcases List.mem_cons.mp he with rfl | he
                  · exact Or.inl ⟨_, rfl⟩
                  · rcases List.mem_append.mp he with he | he
                    · exact Or.inr (Or.inl (hstevs e he))
                    · simp at he
                · rcases List.mem_map.mp he with ⟨r, hr, rfl⟩
                  obtain ⟨tail, htail, hshape⟩ :=
                    write_items_recs_shape env.add_call params.batch_size
                      st.good.length st.good ⟨0, []⟩ rfl
                  rw [htail] at hr
                  simp only [List.nil_append] at hr
                  obtain ⟨mm, hmm⟩ := hshape r hr
                  refine Or.inr (Or.inr ⟨r.1, mm, ?_⟩)
                  rw [hmm] }
        · simp only [hfs] at he
          rcases List.mem_cons.mp he with rfl | he
          · exact Or.inl ⟨_, rfl⟩
          · exact Or.inr (Or.inl (hstevs e he))

theorem worker_body_evs_ok (env : Env) (params : Params) :
    ∀ e ∈ (worker_body env params).1, evOk e := by
  intro e he
  rcases worker_body_events env params e he with ⟨n, rfl⟩ | hs | ⟨u, mm, rfl⟩
  · exact evOk_setTotal n
  · exact evOk_of_scanEv hs
  · exact evOk_badUri _ _

theorem worker_body_badUri_note (env : Env) (params : Params)
    (u note : String) (h : Ev.badUri u note ∈ (worker_body env params).1) :
    ∃ mm, note = "add_failed:" ++ mm := by
  rcases worker_body_events env params _ h with ⟨n, hn⟩ | hs | ⟨u', mm, hmm⟩
  · cases hn
  · exact absurd rfl (scanEv_not_badUri hs u note)
  · cases hmm
    exact ⟨mm, rfl⟩

/-! ### Concrete environments used by witnesses and counterexamples -/

/-- An unavailable track whose locator does not match `URI_RE`. -/
def sampleBadTrack : Track :=
  ⟨some "x1", some "spotify:track:short", some false, none, some []⟩

/-- An unavailable track with a format-valid locator. -/
def sampleGoodTrack : Track :=
  ⟨some "x2", some "spotify:track:abcdefghij0123456789AB", some false, none,
   some []⟩

def samplePl : PlRef := ⟨"pl1", some "P1"⟩

/-- One playlist holding one unavailable, malformed-locator track. -/
def sampleEnv : Env :=
  { current_user := .ok ("user", none)
    resolve_only := fun _ => .error "unused"
    user_playlists := .ok [samplePl]
    counts := fun _ => .ok 1
    liked_total := .ok 0
    playlist_items := fun _ => ([⟨none, some sampleBadTrack⟩], none)
    liked_items := ([], none)
    create_playlist := .error "unused"
    add_call := fun _ => CallResult.ok
    today := "2025-01-01" }

/-- Like `sampleEnv` but the track's locator is valid. -/
def sampleEnvValid : Env :=
  { sampleEnv with playlist_items := fun _ => ([⟨none, some sampleGoodTrack⟩], none) }

/-- Live-run environment whose mutating capability raises a non-Spotify
exception. -/
def sampleEnvOther : Env :=
  { sampleEnvValid with
    create_playlist := .ok "newpid"
    add_call := fun _ => CallResult.otherErr "boom" }

/-- An environment whose very first call fails. -/
def sampleEnvFail : Env :=
  { sampleEnv with current_user := .error "boom" }

def dryParams : Params := ⟨none, none, true, 100⟩

def liveParams : Params := ⟨none, none, false, 100⟩

/-! ### C7: one terminal transition, accumulated rows survive -/

/-- **C7**: every worker run performs exactly one terminal status write and
it is the last shared-state mutation (`done` or `error: <msg>`), so a job's
status is terminal at most once and never reverts — any proper prefix of
the run still shows `running` — and the final job record exposes exactly
the csv/bad-uri rows accumulated during the run, so rows gathered before a
failure remain readable by status/export queries. -/
theorem worker_terminal_once (env : Env) (params : Params) :
    (∃ evs e, worker_trace env params = evs ++ [e] ∧ e.isTerminal = true
      ∧ ∀ x ∈ evs, x.isTerminal = false)
    ∧ (∀ l1 l2, worker_trace env params = l1 ++ l2 → l2 ≠ [] →
        (runTrace initial_job l1).status = "running")
    ∧ ((runTrace initial_job (worker_trace env params)).status = "done"
        ∨ ∃ m, (runTrace initial_job (worker_trace env params)).status
            = "error: " ++ m)
    ∧ (runTrace initial_job (worker_trace env params)).csv_rows
        = rowsOf (worker_trace env params)
    ∧ (runTrace initial_job (worker_trace env params)).bad_uri_rows
        = badsOf (worker_trace env params) := by
  have hterm : (terminal_event (worker_body env params).2).isTerminal = true := by
    cases (worker_body env params).2 <;> rfl
  have hbody := worker_body_evs_ok env params
  refine ⟨⟨(worker_body env params).1,
      terminal_event (worker_body env params).2, rfl, hterm,
      fun x hx => (hbody x hx).1⟩, ?_, ?_, ?_, ?_⟩
  · intro l1 l2 heq hne
    have hpre1 : l1 <+: worker_trace env params := ⟨l2, heq.symm⟩
    have hpre2 : (worker_body env params).1 <+: worker_trace env params :=
      ⟨[terminal_event (worker_body env params).2], rfl⟩
    have hlen : l1.length ≤ (worker_body env params).1.length := by
      have h1 := congrArg List.length heq
      have h3 := congrArg List.length
        (show worker_trace env params = (worker_body env params).1
          ++ [terminal_event (worker_body env params).2] from rfl)
      simp only [List.length_append, List.length_cons, List.length_nil] at h1 h3
      have h0 : l2.length ≠ 0 := fun h0 => hne (List.length_eq_zero.mp h0)
      omega
    have hpre : l1 <+: (worker_body env params).1 :=
      List.prefix_of_prefix_length_le hpre1 hpre2 hlen
    have hsub := hpre.sublist.subset
    rw [runTrace_status_no_terminal l1 initial_job
      (fun x hx => (hbody x (hsub hx)).1)]
    rfl
  · rw [show worker_trace env params = (worker_body env params).1
        ++ [terminal_event (worker_body env params).2] from rfl,
      runTrace_append]
    rcases ho : (worker_body env params).2 with ⟨r, url⟩ | m
    · left
      simp [terminal_event, runTrace, applyEv]
    · right
      exact ⟨m, by simp [terminal_event, runTrace, applyEv]⟩
  · rw [runTrace_csv]
    rfl
  · rw [runTrace_bad]
    rfl

/-- Witness for `worker_terminal_once`: for a run that fails on its first
step, the empty proper prefix of its trace still shows `running`. -/
theorem worker_terminal_once_witness :
    (runTrace initial_job []).status = "running" :=
  (worker_terminal_once sampleEnvFail dryParams).2.1 [] [Ev.setError "boom"]
    (by rfl) (by simp)

/-! ### C6: progress is monotone and counts enumerated items -/

theorem bumpSum_cons (e : Ev) (l : List Ev) :
    bumpSum (e :: l)
      = (match e with | Ev.bump d => d | _ => 0) + bumpSum l := by
  simp [bumpSum]

/-- **C6**: every progress update in a worker run is a bump by exactly one
(one per enumerated item), hence the processed counter is monotonically
non-decreasing along the run; and for a dry-run job in which no step fails,
the final processed value equals the number of items enumerated across all
scanned collections plus the saved-items library. -/
theorem worker_progress (env : Env) (params : Params) :
    (∀ e ∈ worker_trace env params, ∀ d, e = Ev.bump d → d = 1)
    ∧ (∀ l1 l2, worker_trace env params = l1 ++ l2 →
        (runTrace initial_job l1).processed
          ≤ (runTrace initial_job (l1 ++ l2)).processed)
    ∧ (∀ (uid : String) (country : Option String) (pls : List PlRef)
        (lt : Nat),
        env.current_user = Except.ok (uid, country) →
        resolve_playlists env params = Except.ok pls →
        env.liked_total = Except.ok lt →
        (∀ p ∈ pls, (env.playlist_items p.id).2 = none) →
        (env.liked_items).2 = none →
        params.dry_run = true →
        (runTrace initial_job (worker_trace env params)).processed
          = (pls.map (fun p => (env.playlist_items p.id).1.length)).sum
            + (env.liked_items).1.length) := by
  refine ⟨?_, ?_, ?_⟩
  · intro e he d hd
    rcases List.mem_append.mp he with he | he
    · exact (worker_body_evs_ok env params e he).2 d hd
    · simp only [List.mem_singleton] at he
      subst he
      rcases ho : (worker_body env params).2 with ⟨r, url⟩ | m <;>
        rw [ho] at hd <;> simp [terminal_event] at hd
  · intro l1 l2 heq
    rw [runTrace_append]
    exact runTrace_processed_mono l2 _
  · intro uid country pls lt hcu hres hlt hp hl hdry
    obtain ⟨st, hfs, new, hnew, _, hsum⟩ := full_scan_ok env country pls hp hl
    have hbody := worker_body_eq_after_scan hcu hres hlt hfs
    have hgood : ∀ u ∈ st.good, valid_track_uri u = true := by
      have hg := full_scan_good env country pls
      rw [hfs] at hg
      exact hg
    have hf : filter_good st.good = (st.good, 0, []) :=
      filter_good_all_valid hgood
    rw [runTrace_processed_sum]
    unfold worker_trace
    rw [bumpSum_append, hbody]
    simp only [after_scan, hf, hdry, if_true]
    simp only [List.append_nil]
    rw [hnew]
    rw [show bumpSum (Ev.setTotal (estimate_total env pls + lt) :: new)
        = bumpSum new from by rw [bumpSum_cons]; simp]
    rw [hsum]
    simp [bumpSum, terminal_event, initial_job]

/-- Witness for `worker_progress`: the sample dry run enumerates exactly
one item and finishes with `processed = 1`. -/
theorem worker_progress_witness :
    (runTrace initial_job (worker_trace sampleEnv dryParams)).processed
      = ([samplePl].map
          (fun p => (sampleEnv.playlist_items p.id).1.length)).sum
        + (sampleEnv.liked_items).1.length :=
  (worker_progress sampleEnv dryParams).2.2 "user" none [samplePl] 0
    rfl rfl rfl (fun p _ => rfl) rfl rfl

/-! ### C2: malformed locators during the scan -/

theorem add_failed_ne_invalid (mm : String) :
    "add_failed:" ++ mm ≠ "invalid_uri_format" := by
  intro h
  have hd : ("add_failed:" ++ mm).data = "invalid_uri_format".data := by rw [h]
  rw [String.data_append] at hd
  have : "add_failed:".data = 'a' :: "dd_failed:".data := rfl
  rw [this] at hd
  simp at hd

/-- **C2 counterexample**: in a dry run over one playlist holding one
unavailable track whose locator fails the validator, the scan encounters
the malformed locator (one csv row is produced for it) yet the job's
bad-uri ledger stays empty — no `invalid_uri_format` record is appended,
refuting the claim that one is. -/
theorem scan_malformed_not_recorded_cex :
    (is_unavailable_with_reason (some sampleBadTrack) none).1 = true
    ∧ valid_track_uri "spotify:track:short" = false
    ∧ (runTrace initial_job
        (worker_trace sampleEnv dryParams)).csv_rows.length = 1
    ∧ (runTrace initial_job
        (worker_trace sampleEnv dryParams)).bad_uri_rows = [] := by
  refine ⟨by decide, by decide, rfl, rfl⟩

/-- **C2 (amended)**: a locator that fails the strict validator never
enters the candidate set and does not fail the job; however, no bad-item
record is appended for it — the `invalid_uri_format` branch belongs to the
pre-write re-filter, which runs over the already-validated candidate list
and thus never fires, so every bad-uri record a job ever exposes is a
writer `add_failed:<detail>` record. -/
theorem malformed_locator_never_recorded :
    (∀ (env : Env) (country : Option String) (pls : List PlRef),
        ∀ u ∈ ((full_scan env country pls).1).good, valid_track_uri u = true)
    ∧ (∀ (env : Env) (params : Params),
        ∀ r ∈ (runTrace initial_job (worker_trace env params)).bad_uri_rows,
          r.2 ≠ "invalid_uri_format") := by
  refine ⟨full_scan_good, ?_⟩
  intro env params r hr
  rw [runTrace_bad] at hr
  have hr' : r ∈ badsOf (worker_trace env params) := by
    simpa [initial_job] using hr
  unfold worker_trace at hr'
  rw [show badsOf ((worker_body env params).1
      ++ [terminal_event (worker_body env params).2])
      = badsOf ((worker_body env params).1)
        ++ badsOf [terminal_event (worker_body env params).2] from
    List.filterMap_append _ _ _] at hr'
  rcases List.mem_append.mp hr' with hr' | hr'
  · rcases List.mem_filterMap.mp hr' with ⟨e, he, hfe⟩
    rcases e with n | d | row | ⟨u, note⟩ | ⟨rr, url⟩ | mmm <;>
      simp [badEv] at hfe
    obtain ⟨mm, hmm⟩ := worker_body_badUri_note env params u note he
    intro hcon
    have hcon' : note = "invalid_uri_format" := by
      rw [← hfe] at hcon
      exact hcon
    rw [hmm] at hcon'
    exact add_failed_ne_invalid mm hcon'
  · rcases ho : (worker_body env params).2 with ⟨rr, url⟩ | mmm <;>
      rw [ho] at hr' <;> simp [terminal_event, badsOf, badEv] at hr'

/-- Witness for `malformed_locator_never_recorded`: in the valid-locator
sample environment the single candidate is format-valid, and the concrete
`add_failed` record produced by a failing live write is not an
`invalid_uri_format` record. -/
theorem malformed_locator_never_recorded_witness :
    valid_track_uri "spotify:track:abcdefghij0123456789AB" = true :=
  malformed_locator_never_recorded.1 sampleEnvValid none [samplePl]
    "spotify:track:abcdefghij0123456789AB" (by decide)

/-! ### C10: only `SpotifyException` is bisected; anything else errors the
job -/

/-- **C10**: the writer's bisect-and-record handling applies only to the
catalog-specific exception: a chunk whose mutating call fails with any
other exception is neither bisected nor recorded — the state is returned
untouched and the error propagates — and, through the orchestrator's
top-level handler, a write-phase foreign exception moves the whole job to
`error: <msg>`. -/
theorem foreign_exception_propagates :
    (∀ (call : List String → CallResult) (c : String) (cs : List String)
        (st : WriteSt) (m : String),
        call (c :: cs) = CallResult.otherErr m →
        add_chunk call (c :: cs) st = (st, some m))
    ∧ (∀ (env : Env) (params : Params) (uid : String)
        (country : Option String) (pls : List PlRef) (lt : Nat) (st : ScanSt)
        (pid m : String),
        env.current_user = Except.ok (uid, country) →
        resolve_playlists env params = Except.ok pls →
        env.liked_total = Except.ok lt →
        full_scan env country pls = (st, none) →
        params.dry_run = false →
        env.create_playlist = Except.ok pid →
        (write_items env.add_call params.batch_size
          (filter_good st.good).1 ⟨0, []⟩).2 = some m →
        (runTrace initial_job (worker_trace env params)).status
          = "error: " ++ m) := by
  constructor
  · intro call c cs st m h
    exact add_chunk_other_error st h
  · intro env params uid country pls lt st pid m hcu hres hlt hfs hdry hcp hw
    have hbody := worker_body_eq_after_scan hcu hres hlt hfs
    have hout : (worker_body env params).2 = Outcome.err m := by
      rw [hbody]
      simp only [after_scan, hdry, if_false, hcp, hw, Bool.false_eq_true]
    unfold worker_trace
    rw [runTrace_append, hout]
    rfl

/-- Witness for `foreign_exception_propagates`: a two-element chunk whose
call raises a foreign error is returned untouched with the error, and the
sample live run whose capability raises `boom` ends with the job in
`error: boom`. -/
theorem foreign_exception_propagates_witness :
    add_chunk (fun _ => CallResult.otherErr "boom")
        ["spotify:track:a", "spotify:track:b"] ⟨0, []⟩ = (⟨0, []⟩, some "boom")
    ∧ (runTrace initial_job
        (worker_trace sampleEnvOther liveParams)).status
        = "error: " ++ "boom" := by
  constructor
  · exact foreign_exception_propagates.1 _ "spotify:track:a"
      ["spotify:track:b"] ⟨0, []⟩ "boom" rfl
  · have hcall : sampleEnvOther.add_call
        ["spotify:track:abcdefghij0123456789AB"]
        = CallResult.otherErr "boom" := rfl
    have hw : (write_items sampleEnvOther.add_call liveParams.batch_size
        (filter_good (full_scan sampleEnvOther none [samplePl]).1.good).1
        ⟨0, []⟩).2 = some "boom" := by
      rw [show (filter_good (full_scan sampleEnvOther none
          [samplePl]).1.good).1
          = ["spotify:track:abcdefghij0123456789AB"] from rfl]
      rw [write_items]
      rw [dif_neg (by decide : ¬(liveParams.batch_size = 0))]
      rw [show ["spotify:track:abcdefghij0123456789AB"].take
          liveParams.batch_size
          = ["spotify:track:abcdefghij0123456789AB"] from rfl]
      rw [safe_add_items]
      rw [show ["spotify:track:abcdefghij0123456789AB"].take 100
          = ["spotify:track:abcdefghij0123456789AB"] from rfl]
      rw [add_chunk_other_error _ hcall]
      rfl
    exact foreign_exception_propagates.2 sampleEnvOther liveParams "user"
      none [samplePl] 0 (full_scan sampleEnvOther none [samplePl]).1 "newpid"
      "boom" rfl rfl rfl rfl rfl rfl hw

end UnavailableTracks
